import Mathlib

/-!
Verification of the training orchestration core of the VisualMesh repository
(`training/training.py`), checked against its natural-language specification.

The TensorFlow graph code is shallowly embedded: tensors become `List ℚ`
(or `List (List ℚ)` for points × classes tensors), float arithmetic becomes
exact rational arithmetic, `tf.cond` becomes `if`, and fallible operations
(Python `IndexError`, `KeyError`, `NameError`) return `Option`/`Except`.
The transcendental kernels `exp`/`log` used by softmax cross-entropy are
passed in as explicit function parameters: none of the verified properties
depend on their values.  `tf.stop_gradient` is the identity on values and is
dropped.
-/

namespace VM

/-! ### Loss Engine (`_loss`, training.py lines 215-261) -/

/-- `tf.losses.mean_squared_error`: the mean over elements of the squared
difference between predictions and labels (0 for empty inputs, matching the
safe mean used by `tf.losses`; `ℚ` division by zero is 0). -/
def meanSquaredError (pred labels : List ℚ) : ℚ :=
  (((pred.zip labels).map (fun p => (p.1 - p.2) ^ 2)).sum) / (((pred.zip labels).length : ℚ))

/-- `tutor_idx = tf.where(tf.greater(tf.abs(tutor_labels - T), threshold))`:
the indices of the points whose absolute tutor error exceeds the threshold. -/
def tutorIdx (T labels : List ℚ) (thr : ℚ) : List ℕ :=
  (List.range T.length).filter (fun j => thr < |labels.getD j 0 - T.getD j 0|)

/-- The tutor regression loss of `_loss` (lines 228-239): mean-squared error of
`T` against the (gradient-detached) tutor labels gathered at `tutorIdx`, with
`tf.cond(tf.equal(tf.size(tutor_idx), 0), ...)` falling back to the MSE over
all points when no point exceeds the threshold. -/
def tutorLoss (T labels : List ℚ) (thr : ℚ) : ℚ :=
  let idx := tutorIdx T labels thr
  let cut := meanSquaredError (idx.map (fun j => T.getD j 0)) (idx.map (fun j => labels.getD j 0))
  let full := meanSquaredError T labels
  if idx.length = 0 then full else cut

/-- Spec-side restatement (spec §4.1 step 3): the mean-squared error between
`T` and the tutor labels restricted to exactly the points where the absolute
difference exceeds the threshold. -/
def restrictedMSE (T labels : List ℚ) (thr : ℚ) : ℚ :=
  let pts := (T.zip labels).filter (fun p => thr < |p.2 - p.1|)
  meanSquaredError (pts.map Prod.fst) (pts.map Prod.snd)

/-- One per-class weight scatter of `_loss` (lines 244-251), for the class
whose truth column of `Y` is `mask`: gather `T` at the points truly labelled
this class, add `base_weight`, normalise to sum to 1, scatter back into a
per-point vector; `tf.cond` yields all zeros when the class has no members. -/
def classScatter (T mask : List ℚ) (bw : ℚ) : List ℚ :=
  let members := (T.zip mask).filter (fun p => p.2 ≠ 0)
  let s := (members.map (fun p => p.1 + bw)).sum
  if members.length = 0 then List.replicate T.length 0
  else (T.zip mask).map (fun p => if p.2 ≠ 0 then (p.1 + bw) / s else 0)

/-- `tf.add_n` over equal-length per-point vectors: the elementwise sum. -/
def addN (ls : List (List ℚ)) (len : ℕ) : List ℚ :=
  ls.foldr (fun l acc => List.zipWith (· + ·) l acc) (List.replicate len 0)

/-- The count of active classes in `_loss` (line 254):
`tf.count_nonzero(tf.stack([tf.count_nonzero(s) for s in scatters]))`, i.e. the
number of scatter vectors with at least one nonzero entry, written as a sum of
indicators and cast to a rational. -/
def activeCount (scatters : List (List ℚ)) : ℚ :=
  (scatters.map (fun s => if s.any (fun x => x ≠ 0) then (1 : ℚ) else 0)).sum

/-- The combined per-point weight vector `W` of `_loss` (lines 242-256):
the per-class scatters for the `n` classes summed with `tf.add_n` and divided
by the number of active classes. -/
def classWeights (T : List ℚ) (Y : List (List ℚ)) (n : ℕ) (bw : ℚ) : List ℚ :=
  let scatters := (List.range n).map (fun i => classScatter T (Y.map (fun y => y.getD i 0)) bw)
  let active := activeCount scatters
  (addN scatters T.length).map (fun w => w / active)

/-! ### Metrics Engine (`_metrics`, training.py lines 264-299) -/

/-- `tf.argmax` over a vector: the first index attaining the maximum. -/
def argmaxAux (bi : ℕ) (bv : ℚ) (i : ℕ) : List ℚ → ℕ
  | [] => bi
  | x :: t => if bv < x then argmaxAux i x (i + 1) t else argmaxAux bi bv (i + 1) t

/-- `tf.argmax(xs, axis=...)` for a single row (0 on an empty row). -/
def argmaxIdx : List ℚ → ℕ
  | [] => 0
  | x :: t => argmaxAux 0 x 1 t

/-- `tf.nn.softmax`, with the float `exp` kernel passed in as `e`. -/
def softmaxL (e : ℚ → ℚ) (xs : List ℚ) : List ℚ :=
  let ex := xs.map e
  ex.map (fun v => v / ex.sum)

/-- `tf.nn.softmax_cross_entropy_with_logits_v2(logits=x, labels=y)` for one
point: `-Σ y_i * log(softmax(x)_i)`, with the float `exp`/`log` kernels passed
in as `e`/`lg`. -/
def softmaxCE (e lg : ℚ → ℚ) (x y : List ℚ) : ℚ :=
  -(((y.zip (softmaxL e x)).map (fun p => p.1 * lg p.2)).sum)

/-- One entry of the metrics mapping: `loss, tp, tn, fp, fn`. -/
structure MetricEntry where
  loss : ℚ
  tp : ℚ
  tn : ℚ
  fp : ℚ
  fn : ℚ
deriving DecidableEq

/-- The per-class body of the `_metrics` loop (lines 272-286) for class index
`i`: binary predictions/labels by argmax-equality (the code takes the argmax
of the softmaxed logits), confusion-matrix counts, and the mean of the
per-point cross-entropy loss restricted to points truly labelled class `i`
(`tf.where(Y[:, i])` selects nonzero column entries; the mean of an empty
gather is 0, the value the code's comment assigns to an absent class). -/
def classEntry (e lg : ℚ → ℚ) (X Y : List (List ℚ)) (i : ℕ) : MetricEntry :=
  let netLoss := (X.zip Y).map (fun p => softmaxCE e lg p.1 p.2)
  let pred := X.map (fun x => decide (argmaxIdx (softmaxL e x) = i))
  let lab := Y.map (fun y => decide (argmaxIdx y = i))
  let sel := ((netLoss.zip (Y.map (fun y => y.getD i 0))).filter (fun p => p.2 ≠ 0)).map Prod.fst
  { loss := sel.sum / (sel.length : ℚ)
    tp := (((pred.zip lab).filter (fun p => p.1 && p.2)).length : ℚ)
    tn := (((pred.zip lab).filter (fun p => !p.1 && !p.2)).length : ℚ)
    fp := (((pred.zip lab).filter (fun p => p.1 && !p.2)).length : ℚ)
    fn := (((pred.zip lab).filter (fun p => !p.1 && p.2)).length : ℚ) }

/-- The per-class part of the metrics mapping: one entry per class name, in
class order (`for i, c in enumerate(config.network.classes)`); `classes` is
the list of class names (`c[0]` in the code). -/
def perClassMetrics (e lg : ℚ → ℚ) (X Y : List (List ℚ)) (classes : List String) :
    List (String × MetricEntry) :=
  classes.enum.map (fun p => (p.2, classEntry e lg X Y p.1))

/-- The `Global` entry of `_metrics` (lines 288-297), computed from the
per-class entries only (the dict comprehensions run before `metrics['Global']`
is assigned).  Note the code's numerator: `class_losses` is the list of
`tf.count_nonzero(m['loss'])` indicators, and `active_classes` counts the
nonzero indicators, so the loss field divides the indicator sum by the
indicator count.  tp/tn/fp/fn sum the per-class values. -/
def globalEntry (m : List (String × MetricEntry)) : MetricEntry :=
  let classLosses : List ℕ := m.map (fun p => if p.2.loss ≠ 0 then 1 else 0)
  let active : ℕ := (classLosses.map (fun l => if l ≠ 0 then 1 else 0)).sum
  { loss := ((classLosses.sum : ℚ)) / ((active : ℚ))
    tp := (m.map (fun p => p.2.tp)).sum
    tn := (m.map (fun p => p.2.tn)).sum
    fp := (m.map (fun p => p.2.fp)).sum
    fn := (m.map (fun p => p.2.fn)).sum }

/-- `metrics['Global'] = {...}` (line 291): the `Global` entry appended to the
per-class mapping. -/
def addGlobal (m : List (String × MetricEntry)) : List (String × MetricEntry) :=
  m ++ [("Global", globalEntry m)]

/-- The full metrics mapping built by `_metrics`. -/
def metricsFn (e lg : ℚ → ℚ) (X Y : List (List ℚ)) (classes : List String) :
    List (String × MetricEntry) :=
  addGlobal (perClassMetrics e lg X Y classes)

/-! ### Multi-Device Merger (`_merge_ops`, training.py lines 302-349)

A gradient entry is a pair of an optional gradient value and a parameter
reference (`compute_gradients` returns `None` for a parameter the loss does
not reach); gradient tensors are modelled by their rational value, parameter
references by a natural number. -/

/-- The length of the tuples produced by Python `zip(*ls)`: the minimum of the
list lengths (no tuples at all when `ls` is empty). -/
def minLenAll (ls : List (List β)) : ℕ :=
  match ls with
  | [] => 0
  | d :: ds => ds.foldl (fun m l => min m l.length) d.length

/-- Python `zip(*ls)`: the `j`-th tuple collects the `j`-th element of every
list, for `j` below every length. -/
def zipStar (ls : List (List β)) (dflt : β) : List (List β) :=
  (List.range (minLenAll ls)).map (fun j => ls.map (fun l => l.getD j dflt))

/-- The gradient-merging loop of `_merge_ops` (lines 312-321): align the
per-device gradient lists positionally with `zip(*...)`; skip any position
where some device reported `None`; otherwise `tf.add_n` the gradient values,
divide by the device count, and keep the first device's parameter reference
(`grads[0][1]`). -/
def mergeGradList (devGrads : List (List (Option ℚ × ℕ))) : List (ℚ × ℕ) :=
  (zipStar devGrads (none, 0)).filterMap (fun col =>
    if col.any (fun v => v.1.isNone) then none
    else some (((col.filterMap (fun v => v.1)).sum) / ((devGrads.length : ℚ)),
      (col.head?.map (fun v => v.2)).getD 0))

/-- `_merge_metrics` on a list of metric entries: fieldwise `tf.add_n`. -/
def mergeMetricEntry (es : List MetricEntry) : MetricEntry :=
  { loss := (es.map (fun x => x.loss)).sum
    tp := (es.map (fun x => x.tp)).sum
    tn := (es.map (fun x => x.tn)).sum
    fp := (es.map (fun x => x.fp)).sum
    fn := (es.map (fun x => x.fn)).sum }

/-- `_merge_metrics` (lines 324-330) at the outer dict level: for every key of
the first device's mapping, merge the corresponding entries of all devices;
a key missing on some device is a Python `KeyError` (`none`), as is an empty
device list (`metrics[0]`). -/
def mergeMetrics (ms : List (List (String × MetricEntry))) : Option (List (String × MetricEntry)) :=
  match ms with
  | [] => none
  | m0 :: _ =>
    m0.mapM (fun kv =>
      ((ms.mapM (fun dm => List.lookup kv.1 dm)) : Option (List MetricEntry)).map
        (fun es => (kv.1, mergeMetricEntry es)))

/-- The device op bundle returned by `_device_graph` (lines 198-212): input
batch (opaque, type `α`), masked predictions, tutor predictions, the three
loss scalars, the two gradient lists, and the metrics mapping. -/
structure DeviceOps (α : Type) where
  data : α
  X : List (List ℚ)
  T : List ℚ
  loss_u : ℚ
  loss_x : ℚ
  loss_t : ℚ
  grads_x : List (Option ℚ × ℕ)
  grads_t : List (Option ℚ × ℕ)
  metrics : List (String × MetricEntry)
deriving DecidableEq

/-- The merged bundle returned by `_merge_ops`: per-device inputs and
predictions collected into lists, averaged losses, merged gradients, and the
merged metrics with every loss divided by the device count (line 333). -/
structure MergedOps (α : Type) where
  data : List α
  X : List (List (List ℚ))
  T : List (List ℚ)
  loss_u : ℚ
  loss_x : ℚ
  loss_t : ℚ
  grads_x : List (ℚ × ℕ)
  grads_t : List (ℚ × ℕ)
  metrics : List (String × MetricEntry)
deriving DecidableEq

/-- `_merge_ops` (lines 302-349). -/
def mergeOps (devs : List (DeviceOps α)) : Option (MergedOps α) :=
  let n : ℚ := (devs.length : ℚ)
  (mergeMetrics (devs.map (fun d => d.metrics))).map (fun mm =>
    { data := devs.map (fun d => d.data)
      X := devs.map (fun d => d.X)
      T := devs.map (fun d => d.T)
      loss_u := (devs.map (fun d => d.loss_u)).sum / n
      loss_x := (devs.map (fun d => d.loss_x)).sum / n
      loss_t := (devs.map (fun d => d.loss_t)).sum / n
      grads_x := mergeGradList (devs.map (fun d => d.grads_x))
      grads_t := mergeGradList (devs.map (fun d => d.grads_t))
      metrics := mm.map (fun kv => (kv.1, { kv.2 with loss := kv.2.loss / n })) })

/-- The merge stage of `_build_training_graph` (line 402):
`ops = _merge_ops(device_ops) if len(device_ops) > 1 else device_ops[0]`.
A single-device run takes the bundle itself; `device_ops[0]` on an empty list
is a Python `IndexError` (`none`). -/
def mergeStage (devs : List (DeviceOps α)) : Option (MergedOps α ⊕ DeviceOps α) :=
  if devs.length > 1 then (mergeOps devs).map Sum.inl
  else devs.head?.map Sum.inr

/-! ### Global step and checkpointing (`_build_training_graph` lines 404-407,
`train` lines 463-466)

The optimiser-application semantics follow TensorFlow: `apply_gradients`
updates the optimiser's variables and increments `global_step` by one if and
only if a `global_step` variable was passed.  The code passes `global_step`
to the network optimiser (line 406) and not to the tutor optimiser
(line 407).  Parameter vectors are opaque lists of rationals. -/

/-- The mutable training state: main-network parameters, tutor parameters and
the `global_step` variable. -/
structure TrainState where
  netVars : List ℚ
  tutorVars : List ℚ
  globalStep : ℕ
deriving DecidableEq

/-- `network_optimiser.apply_gradients(ops['grads']['x'], global_step=global_step)`:
applies an update to the main-network parameters and increments the global
step (line 406). -/
def applyGradientsNet (upd : List ℚ → List ℚ) (s : TrainState) : TrainState :=
  { s with netVars := upd s.netVars, globalStep := s.globalStep + 1 }

/-- `tutor_optimiser.apply_gradients(ops['grads']['t'])`: applies an update to
the tutor parameters; no `global_step` is passed, so the step is untouched
(line 407). -/
def applyGradientsTutor (upd : List ℚ → List ℚ) (s : TrainState) : TrainState :=
  { s with tutorVars := upd s.tutorVars }

/-- One training step of the loop (line 537 runs
`[optimise_mesh_op, optimise_tutor_op]`): both optimiser applications. -/
def trainStep (updX updT : List ℚ → List ℚ) (s : TrainState) : TrainState :=
  applyGradientsTutor updT (applyGradientsNet updX s)

/-- A checkpoint: all trainable variables plus the global step
(`save_vars = {v.name: v ...}; save_vars.update({global_step.name: global_step})`,
lines 464-466). -/
structure Checkpoint where
  vars : List ℚ
  step : ℕ
deriving DecidableEq

/-- `saver.save(...)`: snapshot the trainable parameters and the global step. -/
def saveCheckpoint (s : TrainState) : Checkpoint :=
  { vars := s.netVars ++ s.tutorVars, step := s.globalStep }

/-! ### Structure specs and deep copies (`_build_training_graph` lines 382-389)

A structure spec is a Python list of stages, each stage a list of layer
widths.  To reason about aliasing, stage lists live in a heap (`PyHeap`,
a list of cells indexed by address) and a structure is the list of addresses
of its stages.  `copy.deepcopy` allocates fresh cells; `structure[-1].append`
mutates a cell in place. -/

/-- Heap of stage cells; the address of a cell is its position. -/
abbrev PyHeap := List (List ℕ)

/-- The value of a structure: the stage lists its addresses point at. -/
def readStruct (h : PyHeap) (outer : List ℕ) : List (List ℕ) :=
  outer.map (fun a => h.getD a [])

/-- `copy.deepcopy` of a structure: allocate one fresh cell per stage holding
a copy of its contents, and return the fresh addresses. -/
def deepcopyStruct (h : PyHeap) (outer : List ℕ) : PyHeap × List ℕ :=
  (h ++ readStruct h outer, List.range' h.length outer.length 1)

/-- `structure[-1].append(v)`: mutate the last stage cell in place; indexing
`[-1]` on an empty structure is a Python `IndexError` (`none`). -/
def appendLast (h : PyHeap) (outer : List ℕ) (v : ℕ) : Option PyHeap :=
  match outer.getLast? with
  | some a => some (h.set a (h.getD a [] ++ [v]))
  | none => none

/-- Lines 382-389 of `_build_training_graph`: deep-copy the configured base
structure into `network_structure`; deep-copy either the configured tutor
structure (when present) or `network_structure` into `tutor_structure`; then
append the class count to the last stage of the network structure and `1` to
the last stage of the tutor structure. -/
def buildStructures (h : PyHeap) (base : List ℕ) (tutorBase : Option (List ℕ)) (nClasses : ℕ) :
    Option (PyHeap × List ℕ × List ℕ) :=
  let pNet := deepcopyStruct h base
  let pTut := match tutorBase with
    | some tb => deepcopyStruct pNet.1 tb
    | none => deepcopyStruct pNet.1 pNet.2
  match appendLast pTut.1 pNet.2 nClasses with
  | none => none
  | some h3 => (appendLast h3 pTut.2 1).map (fun h4 => (h4, pNet.2, pTut.2))

/-! ### Model Exporter (`save_yaml_model`, training.py lines 23-62)

A trainable-variable name either matches the pattern
`Network/Conv_(\d+)/Layer_(\d+)/(Weights|Biases):0` — yielding a convolution
index, a layer index, and a role — or it does not and is dropped.  Roles are
numbered by the sort order of the lowercased strings: 0 = `biases`,
1 = `weights`.  Values (`v.tolist()`) are opaque, of type `V`. -/

/-- A trainable-variable name, as seen by the exporter's regex. -/
inductive VarName where
  | convLayer (c l r : ℕ) : VarName
  | other (s : String) : VarName
deriving DecidableEq

/-- The exporter's sort key: (convolution, layer, role). -/
abbrev EKey := ℕ × ℕ × ℕ

/-- The regex match of lines 36-38: a key for matching names, nothing for the
rest. -/
def parseName : VarName → Option EKey
  | .convLayer c l r => some (c, l, r)
  | .other _ => none

/-- The `items` list of lines 34-38: the matching variables with their keys. -/
def matchItems (vars : List (VarName × V)) : List (EKey × V) :=
  vars.filterMap (fun nv => (parseName nv.1).map (fun k => (k, nv.2)))

/-- Lexicographic order on export keys (Python tuple comparison). -/
def keyLE (a b : EKey) : Prop :=
  a.1 < b.1 ∨ (a.1 = b.1 ∧ (a.2.1 < b.2.1 ∨ (a.2.1 = b.2.1 ∧ a.2.2 ≤ b.2.2)))

instance : DecidableRel keyLE := fun a b => by unfold keyLE; exact inferInstance

/-- Strict lexicographic order on export keys; the keyed items of a canonical
snapshot are strictly increasing in this order. -/
def keyLT (a b : EKey) : Prop :=
  a.1 < b.1 ∨ (a.1 = b.1 ∧ (a.2.1 < b.2.1 ∨ (a.2.1 = b.2.1 ∧ a.2.2 < b.2.2)))

/-- The order `sorted(items)` sorts by: the key tuples (the values are never
compared because all keys are distinct). -/
def exportLE (x y : EKey × V) : Prop := keyLE x.1 y.1

instance : DecidableRel (@exportLE V) := fun x y => by unfold exportLE; exact inferInstance

instance : IsTotal (EKey × V) (@exportLE V) :=
  ⟨fun x y => by unfold exportLE keyLE; omega⟩

instance : IsTrans (EKey × V) (@exportLE V) :=
  ⟨fun x y z hxy hyz => by unfold exportLE keyLE at *; omega⟩

/-- Python dict assignment `d[r] = v`: overwrite in place, or append a new
key at the end (dicts preserve insertion order). -/
def dinsert (r : ℕ) (v : V) : List (ℕ × V) → List (ℕ × V)
  | [] => [(r, v)]
  | (k, w) :: t => if k = r then (r, v) :: t else (k, w) :: dinsert r v t

/-- Python `xs[-1] = f(xs[-1])`-style mutation of the last element
(`IndexError` on an empty list). -/
def modifyLast (f : α → α) : List α → Option (List α)
  | [] => none
  | [a] => some [f a]
  | a :: b :: t => (modifyLast f (b :: t)).map (fun l => a :: l)

/-- The nested output structure: convolutions, each a list of layers, each a
role-keyed dict. -/
abbrev ExportOut (V : Type) := List (List (List (ℕ × V)))

/-- The first block of the exporter's loop body (lines 46-50):
`if c != conv: output.append([]); conv = c; layer = -1`. -/
def convBranch (st : ExportOut V × ℤ × ℤ) (c : ℕ) : ExportOut V × ℤ × ℤ :=
  if (c : ℤ) ≠ st.2.1 then (st.1 ++ [[]], (c : ℤ), (-1 : ℤ)) else st

/-- The second block of the loop body (lines 52-55):
`if l != layer: output[-1].append({}); layer = l` — `output[-1]` on an empty
list is an `IndexError`. -/
def layerBranch (st : ExportOut V × ℤ × ℤ) (l : ℕ) : Option (ExportOut V × ℤ × ℤ) :=
  if (l : ℤ) ≠ st.2.2 then
    (modifyLast (fun row => row ++ [[]]) st.1).map (fun o => (o, st.2.1, (l : ℤ)))
  else some st

/-- The assignment of line 57, `output[conv][layer][var] = v`, at which point
`conv = c` and `layer = l`: direct indexing that raises `IndexError` (`none`)
when either index is out of range. -/
def setItem (st : ExportOut V × ℤ × ℤ) (c l r : ℕ) (v : V) : Option (ExportOut V × ℤ × ℤ) :=
  match st.1[c]? with
  | none => none
  | some row =>
    match row[l]? with
    | none => none
    | some cell => some (st.1.set c (row.set l (dinsert r v cell)), st.2)

/-- One iteration of the exporter's `for k, v in sorted(items)` loop
(lines 41-57), on the state `(output, conv, layer)`: the three blocks in
sequence. -/
def exportStep (st : ExportOut V × ℤ × ℤ) (item : EKey × V) : Option (ExportOut V × ℤ × ℤ) :=
  (layerBranch (convBranch st item.1.1) item.1.2.1).bind
    (fun st2 => setItem st2 item.1.1 item.1.2.1 item.1.2.2 item.2)

/-- The exporter's loop over the sorted items, threading the state and
propagating any `IndexError`. -/
def exportRun : List (EKey × V) → ExportOut V × ℤ × ℤ → Option (ExportOut V × ℤ × ℤ)
  | [], st => some st
  | it :: t, st =>
    match exportStep st it with
    | none => none
    | some st2 => exportRun t st2

/-- `save_yaml_model`, up to the value written to disk: filter the variables
through the regex, sort by key, and run the grouping loop from the initial
state `([], conv = -1, layer = -1)`. -/
def saveYamlModel (vars : List (VarName × V)) : Option (ExportOut V) :=
  (exportRun (List.insertionSort (@exportLE V) (matchItems vars)) ([], -1, -1)).map
    (fun st => st.1)

/-- The keyed items of one layer of a canonical snapshot: each role-value pair
of `entries` keyed by convolution `c` and layer `l`. -/
def layerItems (c l : ℕ) (entries : List (ℕ × V)) : List (EKey × V) :=
  entries.map (fun rv => ((c, l, rv.1), rv.2))

/-- The keyed items of the layers of convolution `c`, layer indices counting
from `j`. -/
def convItemsFrom (c j : ℕ) : List (List (ℕ × V)) → List (EKey × V)
  | [] => []
  | x :: t => layerItems c j x ++ convItemsFrom c (j + 1) t

/-- The keyed items of a whole snapshot, convolution indices counting from
`k`. -/
def groupsItemsFrom (k : ℕ) : ExportOut V → List (EKey × V)
  | [] => []
  | conv :: t => convItemsFrom k 0 conv ++ groupsItemsFrom (k + 1) t

/-- The keyed items of a canonical snapshot `gs`: convolution indices are the
positions in `gs`, layer indices the positions within each convolution. -/
def groupsItems (gs : ExportOut V) : List (EKey × V) :=
  groupsItemsFrom 0 gs

/-- Well-formedness of a canonical snapshot: every convolution has at least
one layer, every layer at least one parameter, and the roles within a layer
are strictly increasing (distinct, sorted). -/
def WFGroups (gs : ExportOut V) : Prop :=
  ∀ conv ∈ gs, conv ≠ [] ∧ ∀ layer ∈ conv, layer ≠ [] ∧ (layer.map Prod.fst).Pairwise (· < ·)

/-- A variable snapshot with a gap in the convolution indices: convolutions
{0, 2}, one layer each with weights and biases. -/
def gapVars : List (VarName × ℚ) :=
  [(.convLayer 0 0 1, 10), (.convLayer 0 0 0, 11), (.convLayer 2 0 1, 20), (.convLayer 2 0 0, 21)]

/-! ### Training Loop wind-down (`train`, training.py lines 566-582)

The `except tf.errors.OutOfRangeError` handler is modelled statement by
statement at the level of Python name resolution: each statement reads a
sequence of names in evaluation order and binds some names on success; the
first name that is bound neither among the function's locals nor at module
level raises a `NameError` carrying that name. -/

/-- One Python statement: the names it reads in evaluation order, the names
its assignment targets bind, and a description of its effect. -/
structure PyStmt where
  refs : List String
  binds : List String
  action : String

/-- Run a statement sequence under an environment of bound names: stop with
the offending name at the first unresolvable reference (`NameError`),
otherwise return the actions performed, in order. -/
def runStmts (env acc : List String) : List PyStmt → Except String (List String)
  | [] => Except.ok acc.reverse
  | s :: rest =>
    match s.refs.find? (fun n => !env.contains n) with
    | some missing => Except.error missing
    | none => runStmts (s.binds ++ env) (s.action :: acc) rest

/-- The names bound at module level in `training.py` (imports and top-level
definitions, lines 3-20, 23, 65, 450) plus the `print` builtin. -/
def trainModuleGlobals : List String :=
  ["os", "sys", "random", "tf", "device_lib", "copy", "yaml", "re", "io", "cv2", "time",
   "np", "mpl", "plt", "network", "dataset", "save_yaml_model", "MeshDrawer", "train", "print"]

/-- The local names `train` has bound by the time the exhaustion handler runs:
its parameters and every unconditional assignment target of lines 453-539
(`checkpoint_file` is bound only on the restore path and is never referenced
by the handler, so its presence cannot change the handler's outcome). -/
def trainLocalsAtHandler : List String :=
  ["config", "output_path", "gpus", "ops", "global_step", "summary_writer", "save_vars",
   "saver", "training_dataset", "training_ds_stats", "validation_dataset", "image_dataset",
   "tf_config", "sess", "model_path", "training_handle",
   "validation_handle", "image_handle", "start", "output", "end"]

/-- The statements of the exhaustion handler, lines 569-582. -/
def exceptBlockStmts : List PyStmt :=
  [{ refs := ["sess", "validation_summary", "net", "validation_handle"],
     binds := ["summary"], action := "final validation pass" },
   { refs := ["summary_writer", "summary", "tf", "sess", "global_step"],
     binds := [], action := "write validation summary" },
   { refs := ["sess", "image_summary", "net", "image_handle"],
     binds := ["summary"], action := "final image-preview pass" },
   { refs := ["summary_writer", "summary", "tf", "sess", "global_step"],
     binds := [], action := "write image summary" },
   { refs := ["saver", "sess", "model_path", "tf", "global_step"],
     binds := [], action := "save checkpoint" },
   { refs := ["save_yaml_model", "sess", "output_path", "tf", "global_step"],
     binds := [], action := "export yaml model" },
   { refs := ["print"], binds := [], action := "print Training done" }]

/-- The wind-down sequence the training loop runs on dataset exhaustion. -/
def runWindDown : Except String (List String) :=
  runStmts (trainLocalsAtHandler ++ trainModuleGlobals) [] exceptBlockStmts

/-! ## Theorems -/

/-- Claim C2 (code bug): the exhaustion handler is claimed to run a final
validation pass, image pass, checkpoint save and export and return normally;
in the code its very first statement reads the unbound name
`validation_summary` (the function defines `ops`, not `validation_summary`,
`net` or `image_summary`), so the wind-down raises a `NameError` instead of
returning normally. -/
theorem claim_C2_winddown_name_error :
    runWindDown = Except.error "validation_summary"
    ∧ ∀ acts : List String, runWindDown ≠ Except.ok acts := by
  have h1 : runWindDown = Except.error "validation_summary" := by rfl
  exact ⟨h1, fun acts h => by rw [h1] at h; exact Except.noConfusion h⟩

/-- Claim C6, counterexample: the claim says each application of gradients by
an optimizer increments the global step once, but the tutor optimiser's
application (line 407 passes no `global_step`) leaves the step unchanged:
from step 5 it stays at 5, not 6. -/
theorem claim_C6_counterexample :
    ¬ ((applyGradientsTutor id { netVars := [], tutorVars := [], globalStep := 5 }).globalStep
        = 5 + 1) := by
  decide

/-- Claim C6 (amended): the global step is monotonically increasing,
incremented exactly once per main-network optimizer application — the tutor
optimizer application leaves it unchanged, so exactly once per training step —
and it is persisted with the checkpoint. -/
theorem claim_C6_global_step (updX updT : List ℚ → List ℚ) (s : TrainState) (n : ℕ) :
    ((trainStep updX updT)^[n] s).globalStep = s.globalStep + n
    ∧ s.globalStep ≤ ((trainStep updX updT)^[n] s).globalStep
    ∧ (applyGradientsNet updX s).globalStep = s.globalStep + 1
    ∧ (applyGradientsTutor updT s).globalStep = s.globalStep
    ∧ (saveCheckpoint s).step = s.globalStep := by
  have key : ∀ (m : ℕ) (t : TrainState),
      ((trainStep updX updT)^[m] t).globalStep = t.globalStep + m := by
    intro m
    induction m with
    | zero => intro t; simp
    | succ k ih =>
      intro t
      rw [Function.iterate_succ_apply, ih]
      have ht : (trainStep updX updT t).globalStep = t.globalStep + 1 := rfl
      omega
  refine ⟨key n s, ?_, rfl, rfl, rfl⟩
  rw [key n s]
  omega

/-- Claim C8: with exactly one device op bundle, the merge stage of the
training graph builder returns that bundle unchanged — the `else` branch of
line 402 takes `device_ops[0]` and applies no merging transformation. -/
theorem claim_C8_single_device_identity (α : Type) (b : DeviceOps α) :
    mergeStage [b] = some (Sum.inr b) := by
  simp [mergeStage]

/-- In a string-keyed association list whose keys all differ from `k`,
looking up `k` after appending `(k, g)` finds `g`. -/
theorem lookup_concat_of_forall_ne {β : Type} (m : List (String × β)) (k : String) (g : β)
    (h : ∀ p ∈ m, p.1 ≠ k) : List.lookup k (m ++ [(k, g)]) = some g := by
  induction m with
  | nil => simp [List.lookup]
  | cons a t ih =>
    obtain ⟨a1, a2⟩ := a
    have ha : (k == a1) = false := by
      have := h (a1, a2) (by simp)
      simp only [ne_eq] at this
      exact beq_eq_false_iff_ne.mpr (fun hk => this hk.symm)
    simp only [List.cons_append, List.lookup, ha]
    exact ih (fun p hp => h p (by simp [hp]))

/-- Every key of the per-class part of the metrics mapping is a class name. -/
theorem perClassMetrics_keys (e lg : ℚ → ℚ) (X Y : List (List ℚ)) (classes : List String) :
    ∀ p ∈ perClassMetrics e lg X Y classes, p.1 ∈ classes := by
  intro p hp
  simp only [perClassMetrics, List.mem_map] at hp
  obtain ⟨q, hq, rfl⟩ := hp
  have : q.2 ∈ classes.enum.map Prod.snd := List.mem_map_of_mem Prod.snd hq
  rwa [List.enum_map_snd] at this

/-- Claim C7: the `Global` entry's `tp`, `tn`, `fp` and `fn` each equal the
exact sum of the corresponding per-class values, the `Global` entry itself
not included (the sums in lines 293-296 are evaluated before
`metrics['Global']` is assigned). -/
theorem claim_C7_global_sums (e lg : ℚ → ℚ) (X Y : List (List ℚ)) (classes : List String)
    (hne : classes ≠ []) (hg : "Global" ∉ classes) :
    ∃ g : MetricEntry,
      List.lookup "Global" (metricsFn e lg X Y classes) = some g
      ∧ g.tp = ((perClassMetrics e lg X Y classes).map (fun p => p.2.tp)).sum
      ∧ g.tn = ((perClassMetrics e lg X Y classes).map (fun p => p.2.tn)).sum
      ∧ g.fp = ((perClassMetrics e lg X Y classes).map (fun p => p.2.fp)).sum
      ∧ g.fn = ((perClassMetrics e lg X Y classes).map (fun p => p.2.fn)).sum := by
  have hnames : ∀ p ∈ perClassMetrics e lg X Y classes, p.1 ≠ "Global" := by
    intro p hp hcontra
    exact hg (hcontra ▸ perClassMetrics_keys e lg X Y classes p hp)
  refine ⟨globalEntry (perClassMetrics e lg X Y classes), ?_, rfl, rfl, rfl, rfl⟩
  exact lookup_concat_of_forall_ne _ "Global" _ hnames

/-- Claim C7, witness: a concrete metrics mapping at which the hypotheses of
`claim_C7_global_sums` hold. -/
theorem claim_C7_witness :
    (["a", "b"] : List String) ≠ []
    ∧ "Global" ∉ (["a", "b"] : List String)
    ∧ ∃ g : MetricEntry,
        List.lookup "Global" (metricsFn id id [[1, 0], [0, 1]] [[1, 0], [0, 1]] ["a", "b"])
          = some g
        ∧ g.tp = ((perClassMetrics id id [[1, 0], [0, 1]] [[1, 0], [0, 1]] ["a", "b"]).map
            (fun p => p.2.tp)).sum
        ∧ g.tn = ((perClassMetrics id id [[1, 0], [0, 1]] [[1, 0], [0, 1]] ["a", "b"]).map
            (fun p => p.2.tn)).sum
        ∧ g.fp = ((perClassMetrics id id [[1, 0], [0, 1]] [[1, 0], [0, 1]] ["a", "b"]).map
            (fun p => p.2.fp)).sum
        ∧ g.fn = ((perClassMetrics id id [[1, 0], [0, 1]] [[1, 0], [0, 1]] ["a", "b"]).map
            (fun p => p.2.fn)).sum :=
  ⟨by decide, by decide,
    claim_C7_global_sums id id [[1, 0], [0, 1]] [[1, 0], [0, 1]] ["a", "b"]
      (by decide) (by decide)⟩

/-- Claim C1 (code bug): the spec says the `Global` loss is the sum of the
per-class losses divided by the count of classes with nonzero loss; the code
(line 289) sets `class_losses` to the *nonzero-indicator counts* of the
per-class losses and divides their sum by the count of nonzero indicators,
so the `Global` loss is 1 whenever any class is present.  Concretely: with
per-class losses 2 and 4 the code yields 1 while the claimed value is 3. -/
theorem claim_C1_code_bug :
    ((List.lookup "Global" (metricsFn (fun q => q)
        (fun q => if q = 1 / 2 then -2 else if q = 3 / 4 then -4 else 0)
        [[1, 1], [1, 3]] [[1, 0], [0, 1]] ["a", "b"])).map (fun g => g.loss) = some 1)
    ∧ (perClassMetrics (fun q => q)
        (fun q => if q = 1 / 2 then -2 else if q = 3 / 4 then -4 else 0)
        [[1, 1], [1, 3]] [[1, 0], [0, 1]] ["a", "b"]).map (fun p => p.2.loss) = [2, 4]
    ∧ (((perClassMetrics (fun q => q)
        (fun q => if q = 1 / 2 then -2 else if q = 3 / 4 then -4 else 0)
        [[1, 1], [1, 3]] [[1, 0], [0, 1]] ["a", "b"]).map (fun p => p.2.loss)).sum /
        ((((perClassMetrics (fun q => q)
          (fun q => if q = 1 / 2 then -2 else if q = 3 / 4 then -4 else 0)
          [[1, 1], [1, 3]] [[1, 0], [0, 1]] ["a", "b"]).filter
            (fun p => p.2.loss ≠ 0)).length : ℚ))
        = 3)
    ∧ (1 : ℚ) ≠ 3 :=
  of_decide_eq_true (by with_unfolding_all rfl)

/-- Gathering `(T, labels)` at the indices of `tutorIdx` is the same as
filtering the zipped pairs by the threshold test. -/
theorem tutorIdx_map_pairs (T : List ℚ) :
    ∀ (L : List ℚ) (thr : ℚ), L.length = T.length →
      (tutorIdx T L thr).map (fun j => (T.getD j 0, L.getD j 0))
        = (T.zip L).filter (fun p => thr < |p.2 - p.1|) := by
  induction T with
  | nil =>
    intro L thr h
    simp only [List.length_nil, List.length_eq_zero] at h
    subst h
    rfl
  | cons t T ih =>
    intro L thr h
    cases L with
    | nil => simp at h
    | cons l L =>
      have hh : L.length = T.length := by simpa using h
      have hpred : (fun j => decide (thr < |(l :: L).getD j 0 - (t :: T).getD j 0|)) ∘ Nat.succ
          = fun j => decide (thr < |L.getD j 0 - T.getD j 0|) := by
        funext j
        simp [List.getD_cons_succ]
      have hpair : (fun j => ((t :: T).getD j 0, (l :: L).getD j 0)) ∘ Nat.succ
          = fun j => (T.getD j 0, L.getD j 0) := by
        funext j
        simp [List.getD_cons_succ]
      simp only [tutorIdx, List.length_cons, List.range_succ_eq_map, List.filter_cons,
        List.filter_map, hpred, List.getD_cons_zero, List.zip_cons_cons]
      by_cases hc : thr < |l - t|
      · rw [if_pos (decide_eq_true hc), if_pos (decide_eq_true hc)]
        simp only [List.map_cons, List.map_map, hpair, List.getD_cons_zero]
        exact congrArg _ (ih L thr hh)
      · rw [if_neg (fun hq => hc (of_decide_eq_true hq)),
          if_neg (fun hq => hc (of_decide_eq_true hq))]
        rw [List.map_map, hpair]
        exact ih L thr hh

/-- Claim C3: when at least one point's absolute tutor error exceeds the
threshold, the tutor loss is the mean-squared error between `T` and the
(gradient-detached, hence value-identical) tutor labels restricted to exactly
those points; when no point exceeds the threshold it is the mean-squared
error over all points. -/
theorem claim_C3_tutor_loss (T labels : List ℚ) (thr : ℚ) (hlen : labels.length = T.length) :
    ((∃ j < T.length, thr < |labels.getD j 0 - T.getD j 0|) →
        tutorLoss T labels thr = restrictedMSE T labels thr)
    ∧ ((∀ j < T.length, ¬ thr < |labels.getD j 0 - T.getD j 0|) →
        tutorLoss T labels thr = meanSquaredError T labels) := by
  constructor
  · rintro ⟨j, hj, hgt⟩
    have hmem : j ∈ tutorIdx T labels thr := by
      simp only [tutorIdx, List.mem_filter, List.mem_range, decide_eq_true_eq]
      exact ⟨hj, hgt⟩
    have hne : (tutorIdx T labels thr).length ≠ 0 := by
      intro h0
      rw [List.length_eq_zero] at h0
      rw [h0] at hmem
      exact List.not_mem_nil j hmem
    have key := tutorIdx_map_pairs T labels thr hlen
    have h1 : (tutorIdx T labels thr).map (fun j => T.getD j 0)
        = ((T.zip labels).filter (fun p => thr < |p.2 - p.1|)).map Prod.fst := by
      rw [← key, List.map_map]
      rfl
    have h2 : (tutorIdx T labels thr).map (fun j => labels.getD j 0)
        = ((T.zip labels).filter (fun p => thr < |p.2 - p.1|)).map Prod.snd := by
      rw [← key, List.map_map]
      rfl
    show (if (tutorIdx T labels thr).length = 0 then _ else _) = _
    rw [if_neg hne, restrictedMSE, h1, h2]
  · intro hall
    have hidx : tutorIdx T labels thr = [] := by
      apply List.filter_eq_nil_iff.mpr
      intro a ha
      rw [List.mem_range] at ha
      simpa using hall a ha
    show (if (tutorIdx T labels thr).length = 0 then _ else _) = _
    rw [hidx]
    rfl

/-- Claim C3, witness: a concrete batch at which the hypotheses of
`claim_C3_tutor_loss` hold (two points, one exceeding the threshold). -/
theorem claim_C3_witness :
    ([(0 : ℚ), 1] : List ℚ).length = ([(0 : ℚ), 0] : List ℚ).length
    ∧ (((∃ j < ([(0 : ℚ), 0] : List ℚ).length,
          (1 : ℚ) / 2 < |([(0 : ℚ), 1] : List ℚ).getD j 0 - ([(0 : ℚ), 0] : List ℚ).getD j 0|) →
            tutorLoss [(0 : ℚ), 0] [(0 : ℚ), 1] (1 / 2)
              = restrictedMSE [(0 : ℚ), 0] [(0 : ℚ), 1] (1 / 2))
      ∧ ((∀ j < ([(0 : ℚ), 0] : List ℚ).length,
          ¬ (1 : ℚ) / 2 < |([(0 : ℚ), 1] : List ℚ).getD j 0 - ([(0 : ℚ), 0] : List ℚ).getD j 0|) →
            tutorLoss [(0 : ℚ), 0] [(0 : ℚ), 1] (1 / 2)
              = meanSquaredError [(0 : ℚ), 0] [(0 : ℚ), 1])) :=
  ⟨of_decide_eq_true (by with_unfolding_all rfl),
    claim_C3_tutor_loss [(0 : ℚ), 0] [(0 : ℚ), 1] (1 / 2)
      (of_decide_eq_true (by with_unfolding_all rfl))⟩

/-- Folding `min` over lists all of length `L` starting from `L` gives `L`. -/
theorem foldl_min_const {α : Type} (ds : List (List α)) (L : ℕ)
    (h : ∀ d ∈ ds, d.length = L) :
    ds.foldl (fun m l => min m l.length) L = L := by
  induction ds with
  | nil => rfl
  | cons d t ih =>
    simp only [List.foldl_cons]
    rw [h d (by simp), min_self]
    exact ih (fun x hx => h x (by simp [hx]))

/-- `zip(*devs)` over equal-length lists produces tuples at every position. -/
theorem minLenAll_eq {α : Type} (devs : List (List α)) (L : ℕ)
    (hne : devs ≠ []) (hL : ∀ d ∈ devs, d.length = L) : minLenAll devs = L := by
  cases devs with
  | nil => exact absurd rfl hne
  | cons d ds =>
    show ds.foldl (fun m l => min m l.length) d.length = L
    rw [hL d (by simp)]
    exact foldl_min_const ds L (fun x hx => hL x (by simp [hx]))

/-- Extracting the present gradients of an all-present column is just taking
each gradient's value. -/
theorem filterMap_fst_of_isSome (l : List (Option ℚ × ℕ))
    (h : ∀ v ∈ l, v.1.isSome = true) :
    l.filterMap (fun v => v.1) = l.map (fun v => v.1.getD 0) := by
  induction l with
  | nil => rfl
  | cons a t ih =>
    obtain ⟨x, hx⟩ := Option.isSome_iff_exists.mp (h a (by simp))
    simp only [List.filterMap_cons, hx, List.map_cons]
    rw [ih (fun v hv => h v (by simp [hv]))]
    simp [hx]

/-- Claim C5: for `N` equal-length device gradient lists, position `j`
contributes an entry to the merged gradient list if and only if every device
reported a present gradient at `j` (an absent gradient on any device excludes
the position entirely — it is never treated as zero), and the merged value is
the arithmetic mean of the `N` per-device values, with the first device's
parameter reference. -/
theorem claim_C5_merged_gradients (devs : List (List (Option ℚ × ℕ))) (L : ℕ)
    (hN : 2 ≤ devs.length) (hL : ∀ d ∈ devs, d.length = L) :
    mergeGradList devs = (List.range L).filterMap (fun j =>
      if (devs.map (fun d => d.getD j (none, 0))).all (fun v => v.1.isSome)
      then some (((devs.map (fun d => (d.getD j (none, 0)).1.getD 0)).sum) / ((devs.length : ℚ)),
        ((devs.head?.map (fun d => (d.getD j (none, 0)).2)).getD 0))
      else none) := by
  have hne : devs ≠ [] := by
    intro h
    rw [h] at hN
    simp at hN
  unfold mergeGradList zipStar
  rw [minLenAll_eq devs L hne hL, List.filterMap_map]
  apply List.filterMap_congr
  intro j hj
  simp only [Function.comp_apply]
  by_cases hall : ∀ v ∈ devs.map (fun d => d.getD j (none, 0)), v.1.isSome = true
  · have hnone : (devs.map (fun d => d.getD j (none, 0))).any (fun v => v.1.isNone) = false := by
      rw [List.any_eq_false]
      intro v hv
      simp only [Option.isNone_iff_eq_none]
      intro hcontra
      have := hall v hv
      rw [hcontra] at this
      simp at this
    have hall' : (devs.map (fun d => d.getD j (none, 0))).all (fun v => v.1.isSome) = true :=
      List.all_eq_true.mpr hall
    rw [hnone, hall']
    simp only [if_false, if_true, Bool.false_eq_true]
    rw [filterMap_fst_of_isSome _ hall]
    rw [List.map_map, List.head?_map, Option.map_map]
    rfl
  · have hsome : ∃ v ∈ devs.map (fun d => d.getD j (none, 0)), v.1.isNone = true := by
      push_neg at hall
      obtain ⟨v, hv, hvs⟩ := hall
      exact ⟨v, hv, by simp [Option.isNone_iff_eq_none, ← Option.not_isSome_iff_eq_none, hvs]⟩
    have hany : (devs.map (fun d => d.getD j (none, 0))).any (fun v => v.1.isNone) = true :=
      List.any_eq_true.mpr hsome
    have hallf : (devs.map (fun d => d.getD j (none, 0))).all (fun v => v.1.isSome) = false := by
      rw [List.all_eq_false]
      obtain ⟨v, hv, hvn⟩ := hsome
      refine ⟨v, hv, ?_⟩
      simp only [Option.isNone_iff_eq_none] at hvn
      simp [hvn]
    rw [hany, hallf]
    simp

/-- Claim C5, witness: two devices over two parameters; the second parameter
has an absent gradient on device 0 and is excluded, the first is averaged. -/
theorem claim_C5_witness :
    2 ≤ ([[((some (1 : ℚ)), 7), (none, 8)], [(some 3, 7), (some 5, 8)]] :
        List (List (Option ℚ × ℕ))).length
    ∧ (∀ d ∈ ([[((some (1 : ℚ)), 7), (none, 8)], [(some 3, 7), (some 5, 8)]] :
        List (List (Option ℚ × ℕ))), d.length = 2)
    ∧ mergeGradList [[((some (1 : ℚ)), 7), (none, 8)], [(some 3, 7), (some 5, 8)]]
        = (List.range 2).filterMap (fun j =>
          if (([[((some (1 : ℚ)), 7), (none, 8)], [(some 3, 7), (some 5, 8)]] :
              List (List (Option ℚ × ℕ))).map (fun d => d.getD j (none, 0))).all
              (fun v => v.1.isSome)
          then some (((([[((some (1 : ℚ)), 7), (none, 8)], [(some 3, 7), (some 5, 8)]] :
              List (List (Option ℚ × ℕ))).map (fun d => (d.getD j (none, 0)).1.getD 0)).sum) /
              ((([[((some (1 : ℚ)), 7), (none, 8)], [(some 3, 7), (some 5, 8)]] :
                List (List (Option ℚ × ℕ))).length : ℚ)),
            ((([[((some (1 : ℚ)), 7), (none, 8)], [(some 3, 7), (some 5, 8)]] :
              List (List (Option ℚ × ℕ))).head?.map
                (fun d => (d.getD j (none, 0)).2)).getD 0))
          else none) :=
  ⟨of_decide_eq_true (by with_unfolding_all rfl),
    of_decide_eq_true (by with_unfolding_all rfl),
    claim_C5_merged_gradients [[((some (1 : ℚ)), 7), (none, 8)], [(some 3, 7), (some 5, 8)]] 2
      (of_decide_eq_true (by with_unfolding_all rfl))
      (of_decide_eq_true (by with_unfolding_all rfl))⟩

/-- Summing a vector that is `f` on selected entries and 0 elsewhere is
summing `f` over the selected entries. -/
theorem sum_map_ite {α : Type} (p : α → Prop) [DecidablePred p] (f : α → ℚ) (l : List α) :
    (l.map (fun a => if p a then f a else 0)).sum
      = ((l.filter (fun a => decide (p a))).map f).sum := by
  induction l with
  | nil => rfl
  | cons a t ih =>
    by_cases h : p a
    · simp [List.filter_cons, h, ih]
    · simp [List.filter_cons, h, ih]

/-- Dividing every mapped entry by `c` divides the total by `c`. -/
theorem sum_map_div {α : Type} (l : List α) (f : α → ℚ) (c : ℚ) :
    (l.map (fun a => f a / c)).sum = (l.map f).sum / c := by
  induction l with
  | nil => simp
  | cons a t ih => simp [ih, add_div]

/-- The sum of an elementwise sum of equal-length lists. -/
theorem sum_zipWith_add (l₁ : List ℚ) :
    ∀ l₂ : List ℚ, l₁.length = l₂.length →
      (List.zipWith (· + ·) l₁ l₂).sum = l₁.sum + l₂.sum := by
  induction l₁ with
  | nil =>
    intro l₂ h
    simp only [List.length_nil] at h
    have : l₂ = [] := by
      rw [← List.length_eq_zero, ← h]
    subst this
    simp
  | cons a t ih =>
    intro l₂ h
    cases l₂ with
    | nil => simp at h
    | cons b u =>
      have hh : t.length = u.length := by simpa using h
      simp only [List.zipWith_cons_cons, List.sum_cons]
      rw [ih u hh]
      ring

/-- `tf.add_n` over equal-length vectors preserves the length. -/
theorem addN_length (ls : List (List ℚ)) (len : ℕ) (h : ∀ l ∈ ls, l.length = len) :
    (addN ls len).length = len := by
  induction ls with
  | nil => simp [addN]
  | cons a t ih =>
    show (List.zipWith (· + ·) a (addN t len)).length = len
    rw [List.length_zipWith, h a (by simp), ih (fun x hx => h x (by simp [hx])), min_self]

/-- The total of `tf.add_n` is the sum of the per-vector totals. -/
theorem addN_sum (ls : List (List ℚ)) (len : ℕ) (h : ∀ l ∈ ls, l.length = len) :
    (addN ls len).sum = (ls.map List.sum).sum := by
  induction ls with
  | nil => simp [addN]
  | cons a t ih =>
    show (List.zipWith (· + ·) a (addN t len)).sum = _
    rw [sum_zipWith_add a (addN t len)
        (by rw [h a (by simp), addN_length t len (fun x hx => h x (by simp [hx]))]),
      ih (fun x hx => h x (by simp [hx]))]
    simp

/-- Dividing every entry by `c` divides the total by `c`. -/
theorem sum_div_list (l : List ℚ) (c : ℚ) : (l.map (fun w => w / c)).sum = l.sum / c := by
  induction l with
  | nil => simp
  | cons a t ih => simp [ih, add_div]

/-- Unfolding equation for `classScatter`. -/
theorem classScatter_eq (T mask : List ℚ) (bw : ℚ) :
    classScatter T mask bw =
      if ((T.zip mask).filter (fun p => decide (p.2 ≠ 0))).length = 0
      then List.replicate T.length 0
      else (T.zip mask).map (fun p => if p.2 ≠ 0 then
        (p.1 + bw) / ((((T.zip mask).filter (fun p => decide (p.2 ≠ 0))).map
          (fun p => p.1 + bw)).sum) else 0) := rfl

/-- A per-class weight vector sums to 1 when the class has at least one true
member, the tutor outputs are nonnegative and the base weight is positive. -/
theorem classScatter_sum_one (T mask : List ℚ) (bw : ℚ)
    (hbw : 0 < bw) (hT : ∀ t ∈ T, 0 ≤ t)
    (hmem : ∃ p ∈ T.zip mask, p.2 ≠ 0) :
    (classScatter T mask bw).sum = 1 := by
  obtain ⟨p0, hp0, hp0ne⟩ := hmem
  have hmne : ((T.zip mask).filter (fun p => decide (p.2 ≠ 0))) ≠ [] := by
    intro h0
    have : p0 ∈ (T.zip mask).filter (fun p => decide (p.2 ≠ 0)) :=
      List.mem_filter.mpr ⟨hp0, by simpa using hp0ne⟩
    rw [h0] at this
    exact List.not_mem_nil _ this
  have hspos : 0 < (((T.zip mask).filter (fun p => decide (p.2 ≠ 0))).map
      (fun p => p.1 + bw)).sum := by
    apply List.sum_pos
    · intro x hx
      obtain ⟨q, hq, rfl⟩ := List.mem_map.mp hx
      have hq1 : q.1 ∈ T := (List.of_mem_zip (List.mem_of_mem_filter hq)).1
      have := hT _ hq1
      linarith
    · simpa using hmne
  rw [classScatter_eq, if_neg (by simpa [List.length_eq_zero] using hmne)]
  rw [sum_map_ite (fun p => p.2 ≠ 0) _ (T.zip mask)]
  rw [sum_map_div]
  exact div_self (ne_of_gt hspos)

/-- A class with no true members contributes an all-zero weight vector. -/
theorem classScatter_zero (T mask : List ℚ) (bw : ℚ)
    (hnone : ∀ p ∈ T.zip mask, p.2 = 0) :
    classScatter T mask bw = List.replicate T.length 0 := by
  rw [classScatter_eq, if_pos]
  rw [List.length_eq_zero]
  exact List.filter_eq_nil_iff.mpr (fun a ha => by simpa using hnone a ha)

/-- A class with a true member contributes a weight vector with a nonzero
entry (so it counts as active). -/
theorem classScatter_any_ne (T mask : List ℚ) (bw : ℚ)
    (hbw : 0 < bw) (hT : ∀ t ∈ T, 0 ≤ t)
    (hmem : ∃ p ∈ T.zip mask, p.2 ≠ 0) :
    (classScatter T mask bw).any (fun x => x ≠ 0) = true := by
  obtain ⟨p0, hp0, hp0ne⟩ := hmem
  have hmne : ((T.zip mask).filter (fun p => decide (p.2 ≠ 0))) ≠ [] := by
    intro h0
    have : p0 ∈ (T.zip mask).filter (fun p => decide (p.2 ≠ 0)) :=
      List.mem_filter.mpr ⟨hp0, by simpa using hp0ne⟩
    rw [h0] at this
    exact List.not_mem_nil _ this
  have hspos : 0 < (((T.zip mask).filter (fun p => decide (p.2 ≠ 0))).map
      (fun p => p.1 + bw)).sum := by
    apply List.sum_pos
    · intro x hx
      obtain ⟨q, hq, rfl⟩ := List.mem_map.mp hx
      have hq1 : q.1 ∈ T := (List.of_mem_zip (List.mem_of_mem_filter hq)).1
      have := hT _ hq1
      linarith
    · simpa using hmne
  rw [classScatter_eq, if_neg (by simpa [List.length_eq_zero] using hmne)]
  rw [List.any_eq_true]
  refine ⟨if p0.2 ≠ 0 then (p0.1 + bw) /
      ((((T.zip mask).filter (fun p => decide (p.2 ≠ 0))).map (fun p => p.1 + bw)).sum) else 0,
    List.mem_map_of_mem _ hp0, ?_⟩
  rw [if_pos hp0ne]
  have hp01 : p0.1 ∈ T := (List.of_mem_zip hp0).1
  have h1 : 0 < p0.1 + bw := by
    have := hT _ hp01
    linarith
  simp only [decide_eq_true_eq]
  exact ne_of_gt (div_pos h1 hspos)

/-- A per-class weight vector has one entry per point. -/
theorem classScatter_length (T mask : List ℚ) (bw : ℚ) (h : mask.length = T.length) :
    (classScatter T mask bw).length = T.length := by
  rw [classScatter_eq]
  by_cases hc : ((T.zip mask).filter (fun p => decide (p.2 ≠ 0))).length = 0
  · rw [if_pos hc, List.length_replicate]
  · rw [if_neg hc, List.length_map, List.length_zip, h, min_self]

/-- Claim C4: for a batch with at least one labeled point (given the pipeline
invariants that the tutor outputs `T` are nonnegative — they are sigmoid
outputs — and `base_weight` is positive), every per-class weight vector sums
to 1 when its class has a true member and is all zeros when it has none, and
the combined weight vector `W` has total sum 1. -/
theorem claim_C4_class_weights (T : List ℚ) (Y : List (List ℚ)) (n : ℕ) (bw : ℚ)
    (hbw : 0 < bw) (hT : ∀ t ∈ T, 0 ≤ t) (hlen : Y.length = T.length)
    (hpt : ∃ i < n, ∃ y ∈ Y, y.getD i 0 ≠ 0) :
    (∀ i < n,
       ((∃ y ∈ Y, y.getD i 0 ≠ 0) →
          (classScatter T (Y.map (fun y => y.getD i 0)) bw).sum = 1)
       ∧ ((∀ y ∈ Y, y.getD i 0 = 0) →
          classScatter T (Y.map (fun y => y.getD i 0)) bw = List.replicate T.length 0))
    ∧ (classWeights T Y n bw).sum = 1 := by
  have hbridge : ∀ i : ℕ, (∃ y ∈ Y, y.getD i 0 ≠ 0) →
      ∃ p ∈ T.zip (Y.map (fun y => y.getD i 0)), p.2 ≠ 0 := by
    intro i hm
    obtain ⟨y, hy, hyne⟩ := hm
    obtain ⟨j, hj, hyj⟩ := List.mem_iff_getElem.mp hy
    have hjT : j < T.length := by omega
    have hjz : j < (T.zip (Y.map (fun y => y.getD i 0))).length := by
      rw [List.length_zip, List.length_map, hlen, min_self]
      exact hjT
    refine ⟨(T.zip (Y.map (fun y => y.getD i 0)))[j], List.getElem_mem hjz, ?_⟩
    rw [List.getElem_zip]
    dsimp only
    rw [List.getElem_map, hyj]
    exact hyne
  have hbridge2 : ∀ i : ℕ, (∀ y ∈ Y, y.getD i 0 = 0) →
      ∀ p ∈ T.zip (Y.map (fun y => y.getD i 0)), p.2 = 0 := by
    intro i hall p hp
    have hp2 : p.2 ∈ Y.map (fun y => y.getD i 0) := (List.of_mem_zip hp).2
    obtain ⟨y, hy, hyv⟩ := List.mem_map.mp hp2
    rw [← hyv]
    exact hall y hy
  constructor
  · intro i _
    constructor
    · intro hm
      exact classScatter_sum_one T _ bw hbw hT (hbridge i hm)
    · intro hall
      exact classScatter_zero T _ bw (hbridge2 i hall)
  · have hmaskLen : ∀ i : ℕ, (Y.map (fun y => y.getD i 0)).length = T.length := by
      intro i
      rw [List.length_map, hlen]
    have hlenS : ∀ s ∈ (List.range n).map
        (fun i => classScatter T (Y.map (fun y => y.getD i 0)) bw), s.length = T.length := by
      intro s hs
      obtain ⟨i, _, rfl⟩ := List.mem_map.mp hs
      exact classScatter_length T _ bw (hmaskLen i)
    show ((addN ((List.range n).map
        (fun i => classScatter T (Y.map (fun y => y.getD i 0)) bw)) T.length).map
        (fun w => w / activeCount ((List.range n).map
          (fun i => classScatter T (Y.map (fun y => y.getD i 0)) bw)))).sum = 1
    rw [sum_div_list, addN_sum _ _ hlenS]
    have hind : ∀ i ∈ List.range n,
        List.sum (classScatter T (Y.map (fun y => y.getD i 0)) bw)
          = (fun s => if s.any (fun x => x ≠ 0) then (1 : ℚ) else 0)
              (classScatter T (Y.map (fun y => y.getD i 0)) bw) := by
      intro i _
      by_cases hm : ∃ y ∈ Y, y.getD i 0 ≠ 0
      · rw [classScatter_sum_one T _ bw hbw hT (hbridge i hm)]
        simp only []
        rw [if_pos (classScatter_any_ne T _ bw hbw hT (hbridge i hm))]
      · push_neg at hm
        rw [classScatter_zero T _ bw (hbridge2 i hm)]
        simp
    have hsums : (((List.range n).map
        (fun i => classScatter T (Y.map (fun y => y.getD i 0)) bw)).map List.sum).sum
        = activeCount ((List.range n).map
            (fun i => classScatter T (Y.map (fun y => y.getD i 0)) bw)) := by
      unfold activeCount
      rw [List.map_map, List.map_map]
      exact congrArg List.sum (List.map_congr_left hind)
    rw [hsums]
    apply div_self
    obtain ⟨i0, hi0, hm0⟩ := hpt
    have hone : (1 : ℚ) ∈ ((List.range n).map
        (fun i => classScatter T (Y.map (fun y => y.getD i 0)) bw)).map
          (fun s => if s.any (fun x => x ≠ 0) then (1 : ℚ) else 0) := by
      rw [List.map_map]
      apply List.mem_map.mpr
      refine ⟨i0, List.mem_range.mpr hi0, ?_⟩
      simp only [Function.comp_apply]
      rw [if_pos (classScatter_any_ne T _ bw hbw hT (hbridge i0 hm0))]
    have hnn : ∀ x ∈ ((List.range n).map
        (fun i => classScatter T (Y.map (fun y => y.getD i 0)) bw)).map
          (fun s => if s.any (fun x => x ≠ 0) then (1 : ℚ) else 0), 0 ≤ x := by
      intro x hx
      obtain ⟨s, _, rfl⟩ := List.mem_map.mp hx
      by_cases hs : s.any (fun x => x ≠ 0)
      · rw [if_pos hs]
        norm_num
      · rw [if_neg hs]
    have := List.single_le_sum hnn 1 hone
    unfold activeCount
    intro hz
    rw [hz] at this
    linarith

/-- Claim C4, witness: two points, two classes, each class with one true
member, tutor outputs in `[0, 1]` and a positive base weight. -/
theorem claim_C4_witness :
    (0 : ℚ) < 1 / 10
    ∧ (∀ t ∈ ([(1 : ℚ) / 2, 1 / 3] : List ℚ), 0 ≤ t)
    ∧ ([[(1 : ℚ), 0], [0, 1]] : List (List ℚ)).length = ([(1 : ℚ) / 2, 1 / 3] : List ℚ).length
    ∧ (∃ i < 2, ∃ y ∈ ([[(1 : ℚ), 0], [0, 1]] : List (List ℚ)), y.getD i 0 ≠ 0)
    ∧ ((∀ i < 2,
         ((∃ y ∈ ([[(1 : ℚ), 0], [0, 1]] : List (List ℚ)), y.getD i 0 ≠ 0) →
            (classScatter [(1 : ℚ) / 2, 1 / 3]
              (([[(1 : ℚ), 0], [0, 1]] : List (List ℚ)).map (fun y => y.getD i 0))
              (1 / 10)).sum = 1)
         ∧ ((∀ y ∈ ([[(1 : ℚ), 0], [0, 1]] : List (List ℚ)), y.getD i 0 = 0) →
            classScatter [(1 : ℚ) / 2, 1 / 3]
              (([[(1 : ℚ), 0], [0, 1]] : List (List ℚ)).map (fun y => y.getD i 0))
              (1 / 10) = List.replicate ([(1 : ℚ) / 2, 1 / 3] : List ℚ).length 0))
       ∧ (classWeights [(1 : ℚ) / 2, 1 / 3] [[(1 : ℚ), 0], [0, 1]] 2 (1 / 10)).sum = 1) :=
  ⟨of_decide_eq_true (by with_unfolding_all rfl),
    of_decide_eq_true (by with_unfolding_all rfl),
    of_decide_eq_true (by with_unfolding_all rfl),
    of_decide_eq_true (by with_unfolding_all rfl),
    claim_C4_class_weights [(1 : ℚ) / 2, 1 / 3] [[(1 : ℚ), 0], [0, 1]] 2 (1 / 10)
      (of_decide_eq_true (by with_unfolding_all rfl))
      (of_decide_eq_true (by with_unfolding_all rfl))
      (of_decide_eq_true (by with_unfolding_all rfl))
      (of_decide_eq_true (by with_unfolding_all rfl))⟩

/-- Reading below the old heap end is unaffected by appended cells. -/
theorem getD_append_left (h l' : PyHeap) (a : ℕ) (ha : a < h.length) :
    (h ++ l').getD a [] = h.getD a [] :=
  List.getD_append h l' [] a ha

/-- Reading a cell other than the one written is unaffected. -/
theorem getD_set_ne (h : PyHeap) (a b : ℕ) (v : List ℕ) (hne : b ≠ a) :
    (h.set b v).getD a [] = h.getD a [] := by
  rw [List.getD_eq_getElem?_getD, List.getD_eq_getElem?_getD, List.getElem?_set_ne hne]

/-- Reading the cell just written yields the written value. -/
theorem getD_set_eq (h : PyHeap) (b : ℕ) (v : List ℕ) (hb : b < h.length) :
    (h.set b v).getD b [] = v := by
  rw [List.getD_eq_getElem?_getD, List.getElem?_set_self hb]
  rfl

/-- Structures whose cells agree read equal. -/
theorem readStruct_congr (h h' : PyHeap) (outer : List ℕ)
    (hsame : ∀ a ∈ outer, h'.getD a [] = h.getD a []) :
    readStruct h' outer = readStruct h outer :=
  List.map_congr_left hsame

/-- The last address of a nonempty allocation block. -/
theorem range'_getLast? (s m : ℕ) :
    (List.range' s (m + 1) 1).getLast? = some (s + m) := by
  rw [List.range'_concat]
  simp [List.getLast?_concat]

/-- Common tail of `buildStructures` after the two deep copies: the heap is
`(h ++ readStruct h base) ++ c2`, the net structure occupies the first fresh
block and the tutor structure the second; both in-place appends succeed,
the base cells are untouched, the two structures end with the appended output
widths, and their address blocks are disjoint. -/
theorem build_tail (h : PyHeap) (base : List ℕ) (c2 : List (List ℕ)) (nClasses : ℕ)
    (hbv : ∀ a ∈ base, a < h.length) (hb : base ≠ []) (hc2 : c2 ≠ []) :
    ∃ h3 h4,
      appendLast ((h ++ readStruct h base) ++ c2) (List.range' h.length base.length 1) nClasses
        = some h3
      ∧ appendLast h3 (List.range' (h ++ readStruct h base).length c2.length 1) 1 = some h4
      ∧ readStruct h4 base = readStruct h base
      ∧ (∃ s, (readStruct h4 (List.range' h.length base.length 1)).getLast?
          = some (s ++ [nClasses]))
      ∧ (∃ s, (readStruct h4 (List.range' (h ++ readStruct h base).length c2.length 1)).getLast?
          = some (s ++ [1]))
      ∧ (List.range' h.length base.length 1).Disjoint
          (List.range' (h ++ readStruct h base).length c2.length 1) := by
  obtain ⟨m1, hm1⟩ : ∃ m1, base.length = m1 + 1 :=
    ⟨base.length - 1, by cases base with | nil => exact absurd rfl hb | cons a t => simp⟩
  obtain ⟨m2, hm2⟩ : ∃ m2, c2.length = m2 + 1 :=
    ⟨c2.length - 1, by cases c2 with | nil => exact absurd rfl hc2 | cons a t => simp⟩
  have hlh1 : (h ++ readStruct h base).length = h.length + base.length := by
    simp [readStruct]
  have hlh2 : ((h ++ readStruct h base) ++ c2).length
      = (h ++ readStruct h base).length + c2.length := by
    simp [Nat.add_assoc]
  have hnetLast : (List.range' h.length base.length 1).getLast? = some (h.length + m1) := by
    rw [hm1]
    exact range'_getLast? _ _
  have htutLast : (List.range' (h ++ readStruct h base).length c2.length 1).getLast?
      = some ((h ++ readStruct h base).length + m2) := by
    rw [hm2]
    exact range'_getLast? _ _
  set h1 : PyHeap := h ++ readStruct h base with hh1
  set h2 : PyHeap := h1 ++ c2 with hh2
  set A : ℕ := h.length + m1 with hA
  set B : ℕ := h1.length + m2 with hB
  have hAlt2 : A < h2.length := by omega
  have hBlt : B < h2.length := by omega
  have hABne : A ≠ B := by omega
  set h3 : PyHeap := h2.set A (h2.getD A [] ++ [nClasses]) with hh3
  set h4 : PyHeap := h3.set B (h3.getD B [] ++ [1]) with hh4
  have hlh3 : h3.length = h2.length := by rw [hh3, List.length_set]
  refine ⟨h3, h4, ?_, ?_, ?_, ?_, ?_, ?_⟩
  · simp only [appendLast, hnetLast]
  · simp only [appendLast, htutLast]
  · apply readStruct_congr
    intro a ha
    have haH : a < h.length := hbv a ha
    rw [hh4, getD_set_ne _ _ _ _ (by omega), hh3, getD_set_ne _ _ _ _ (by omega),
      hh2, getD_append_left _ _ _ (by omega), hh1, getD_append_left _ _ _ haH]
  · refine ⟨h2.getD A [], ?_⟩
    show ((List.range' h.length base.length 1).map (fun a => h4.getD a [])).getLast? = _
    rw [List.getLast?_map, hnetLast]
    show some (h4.getD A []) = _
    rw [hh4, getD_set_ne _ _ _ _ (Ne.symm hABne), hh3, getD_set_eq _ _ _ hAlt2]
  · refine ⟨h3.getD B [], ?_⟩
    show ((List.range' h1.length c2.length 1).map (fun a => h4.getD a [])).getLast? = _
    rw [List.getLast?_map, htutLast]
    show some (h4.getD B []) = _
    rw [hh4, getD_set_eq _ _ _ (by omega)]
  · rw [List.disjoint_left]
    intro a ha hb2
    rw [List.mem_range'_1] at ha hb2
    omega

/-- Claim C9: `_build_training_graph` deep-copies the base structure spec
before appending output widths, whether the tutor has its own configured
structure (`some tb`) or deep-copies the network structure (`none`): the
construction succeeds, the base spec reads unchanged afterwards, the network
structure's last stage ends with the class count, the tutor structure's last
stage ends with 1, and the two structures occupy disjoint heap cells (no
aliasing: appending to one cannot alter the other). -/
theorem claim_C9_structure_deepcopy (h : PyHeap) (base : List ℕ) (tutorBase : Option (List ℕ)) (nClasses : ℕ)
    (hbv : ∀ a ∈ base, a < h.length) (hb : base ≠ [])
    (htb : ∀ tb ∈ tutorBase, tb ≠ [] ∧ ∀ a ∈ tb, a < h.length) :
    ∃ h4 net tut,
      buildStructures h base tutorBase nClasses = some (h4, net, tut)
      ∧ readStruct h4 base = readStruct h base
      ∧ (∃ s, (readStruct h4 net).getLast? = some (s ++ [nClasses]))
      ∧ (∃ s, (readStruct h4 tut).getLast? = some (s ++ [1]))
      ∧ net.Disjoint tut := by
  cases tutorBase with
  | none =>
    have hc2len : (readStruct (h ++ readStruct h base)
        (List.range' h.length base.length 1)).length = base.length := by
      simp [readStruct]
    obtain ⟨h3, h4, e1, e2, p3, p4, p5, p6⟩ :=
      build_tail h base
        (readStruct (h ++ readStruct h base) (List.range' h.length base.length 1)) nClasses
        hbv hb
        (by
          intro hcontra
          have := hc2len
          rw [hcontra] at this
          cases base with
          | nil => exact hb rfl
          | cons a t => simp at this)
    rw [hc2len] at e2 p5 p6
    refine ⟨h4, List.range' h.length base.length 1,
      List.range' (h ++ readStruct h base).length base.length 1, ?_, p3, p4, p5, p6⟩
    simp only [buildStructures, deepcopyStruct, List.length_range']
    simp only [e1]
    rw [e2]
    rfl
  | some tb =>
    obtain ⟨htbne, htbv⟩ := htb tb (by simp)
    have hc2len : (readStruct (h ++ readStruct h base) tb).length = tb.length := by
      simp [readStruct]
    obtain ⟨h3, h4, e1, e2, p3, p4, p5, p6⟩ :=
      build_tail h base (readStruct (h ++ readStruct h base) tb) nClasses hbv hb
        (by
          intro hcontra
          have := hc2len
          rw [hcontra] at this
          cases tb with
          | nil => exact htbne rfl
          | cons a t => simp at this)
    rw [hc2len] at e2 p5 p6
    refine ⟨h4, List.range' h.length base.length 1,
      List.range' (h ++ readStruct h base).length tb.length 1, ?_, p3, p4, p5, p6⟩
    simp only [buildStructures, deepcopyStruct, List.length_range']
    simp only [e1]
    rw [e2]
    rfl

/-- Claim C9, witness: a heap with two stage cells `[4]` and `[8]`, base
structure at addresses `[0, 1]`, no configured tutor structure, 3 classes. -/
theorem claim_C9_witness :
    (∀ a ∈ ([0, 1] : List ℕ), a < ([[4], [8]] : PyHeap).length)
    ∧ ([0, 1] : List ℕ) ≠ []
    ∧ (∀ tb ∈ (none : Option (List ℕ)), tb ≠ [] ∧ ∀ a ∈ tb, a < ([[4], [8]] : PyHeap).length)
    ∧ (∃ h4 net tut,
        buildStructures [[4], [8]] [0, 1] none 3 = some (h4, net, tut)
        ∧ readStruct h4 [0, 1] = readStruct [[4], [8]] [0, 1]
        ∧ (∃ s, (readStruct h4 net).getLast? = some (s ++ [3]))
        ∧ (∃ s, (readStruct h4 tut).getLast? = some (s ++ [1]))
        ∧ net.Disjoint tut) :=
  ⟨by decide, by decide, by simp,
    claim_C9_structure_deepcopy [[4], [8]] [0, 1] none 3 (by decide) (by decide) (by simp)⟩

/-- Mutating the last element of a nonempty list. -/
theorem modifyLast_concat {α : Type} (f : α → α) (out : List α) (row : α) :
    modifyLast f (out ++ [row]) = some (out ++ [f row]) := by
  induction out with
  | nil => rfl
  | cons a t ih =>
    cases t with
    | nil => rfl
    | cons b u =>
      show (modifyLast f ((b :: u) ++ [row])).map (fun l => a :: l) = _
      rw [ih]
      rfl

/-- Writing at the position of a just-appended element replaces it. -/
theorem concat_set_length {α : Type} (l : List α) (a b : α) :
    (l ++ [a]).set l.length b = l ++ [b] := by
  rw [List.set_append]
  simp

/-- The exporter loop over a concatenation runs the two parts in sequence. -/
theorem exportRun_append (xs : List (EKey × V)) :
    ∀ (ys : List (EKey × V)) (st : ExportOut V × ℤ × ℤ),
      exportRun (xs ++ ys) st
        = match exportRun xs st with
          | none => none
          | some st2 => exportRun ys st2 := by
  induction xs with
  | nil => intro ys st; rfl
  | cons it t ih =>
    intro ys st
    show (match exportStep st it with
        | none => none
        | some st2 => exportRun (t ++ ys) st2)
      = (match (match exportStep st it with
          | none => none
          | some st2 => exportRun t st2) with
        | none => none
        | some st2 => exportRun ys st2)
    cases exportStep st it with
    | none => rfl
    | some st2 => exact ih ys st2

/-- Assigning a fresh key appends it at the end of the dict. -/
theorem dinsert_concat (r : ℕ) (v : V) (l : List (ℕ × V))
    (h : r ∉ l.map Prod.fst) : dinsert r v l = l ++ [(r, v)] := by
  induction l with
  | nil => rfl
  | cons a t ih =>
    obtain ⟨k, w⟩ := a
    simp only [List.map_cons, List.mem_cons] at h
    push_neg at h
    show (if k = r then (r, v) :: t else (k, w) :: dinsert r v t) = _
    rw [if_neg (fun hk => h.1 hk.symm), ih h.2]
    rfl

/-- Assigning a sequence of fresh, pairwise-distinct keys appends them in
order. -/
theorem foldl_dinsert (entries : List (ℕ × V)) :
    ∀ cell : List (ℕ × V),
      (∀ e ∈ entries, e.1 ∉ cell.map Prod.fst) →
      (entries.map Prod.fst).Nodup →
      entries.foldl (fun d e => dinsert e.1 e.2 d) cell = cell ++ entries := by
  induction entries with
  | nil => intro cell _ _; simp
  | cons e t ih =>
    intro cell hdisj hnodup
    simp only [List.foldl_cons]
    rw [dinsert_concat e.1 e.2 cell (hdisj e (by simp))]
    have hnd : (t.map Prod.fst).Nodup := by
      simp only [List.map_cons, List.nodup_cons] at hnodup
      exact hnodup.2
    have hd2 : ∀ x ∈ t, x.1 ∉ (cell ++ [(e.1, e.2)]).map Prod.fst := by
      intro x hx
      simp only [List.map_append, List.mem_append, List.map_cons, List.map_nil,
        List.mem_singleton]
      push_neg
      refine ⟨hdisj x (by simp [hx]), ?_⟩
      simp only [List.map_cons, List.nodup_cons] at hnodup
      intro hcontra
      exact hnodup.1 (hcontra ▸ List.mem_map_of_mem Prod.fst hx)
    rw [ih (cell ++ [(e.1, e.2)]) hd2 hnd]
    simp

/-- The line-57 assignment on the freshly appended row and dict. -/
theorem setItem_last (out : ExportOut V) (row : List (List (ℕ × V))) (cell : List (ℕ × V))
    (cv lv : ℤ) (c l r : ℕ) (v : V) (hout : out.length = c) (hrow : row.length = l) :
    setItem (out ++ [row ++ [cell]], cv, lv) c l r v
      = some (out ++ [row ++ [dinsert r v cell]], cv, lv) := by
  unfold setItem
  subst hout hrow
  show (match (out ++ [row ++ [cell]])[out.length]? with
    | none => none
    | some r2 =>
      match r2[row.length]? with
      | none => none
      | some cell2 => some ((out ++ [row ++ [cell]]).set out.length
          (r2.set row.length (dinsert r v cell2)), cv, lv)) = _
  simp only [List.getElem?_concat_length]
  show some ((out ++ [row ++ [cell]]).set out.length ((row ++ [cell]).set row.length
    (dinsert r v cell)), cv, lv) = _
  rw [concat_set_length, concat_set_length]

/-- A loop iteration whose item continues the current convolution and layer
only inserts into the current dict. -/
theorem exportStep_same (out : ExportOut V) (row : List (List (ℕ × V))) (cell : List (ℕ × V))
    (c l r : ℕ) (v : V) (hout : out.length = c) (hrow : row.length = l) :
    exportStep (out ++ [row ++ [cell]], (c : ℤ), (l : ℤ)) ((c, l, r), v)
      = some (out ++ [row ++ [dinsert r v cell]], (c : ℤ), (l : ℤ)) := by
  unfold exportStep convBranch layerBranch
  simp only [if_neg (show ¬ ((c : ℤ) ≠ (c : ℤ)) from fun hc => hc rfl)]
  simp only [if_neg (show ¬ ((l : ℤ) ≠ (l : ℤ)) from fun hc => hc rfl)]
  show (setItem (out ++ [row ++ [cell]], (c : ℤ), (l : ℤ)) c l r v) = _
  exact setItem_last out row cell _ _ c l r v hout hrow

/-- A loop iteration that starts a new layer of the current convolution
appends a fresh dict holding the item. -/
theorem exportStep_new_layer (out : ExportOut V) (row : List (List (ℕ × V)))
    (c l r : ℕ) (v : V) (lv : ℤ) (hout : out.length = c) (hrow : row.length = l)
    (hlv : lv ≠ (l : ℤ)) :
    exportStep (out ++ [row], (c : ℤ), lv) ((c, l, r), v)
      = some (out ++ [row ++ [[(r, v)]]], (c : ℤ), (l : ℤ)) := by
  unfold exportStep convBranch layerBranch
  simp only [if_neg (show ¬ ((c : ℤ) ≠ (c : ℤ)) from fun hc => hc rfl)]
  rw [if_pos (show (l : ℤ) ≠ ((out ++ [row], (c : ℤ), lv) :
    ExportOut V × ℤ × ℤ).2.2 from fun hc => hlv hc.symm)]
  show ((modifyLast (fun row => row ++ [[]]) (out ++ [row])).map
    (fun o => (o, (c : ℤ), (l : ℤ)))).bind _ = _
  rw [modifyLast_concat]
  show setItem (out ++ [row ++ [[]]], (c : ℤ), (l : ℤ)) c l r v = _
  rw [setItem_last out row [] _ _ c l r v hout hrow]
  rfl

/-- A loop iteration that starts a new convolution (at layer 0) appends a
fresh row holding a fresh dict with the item. -/
theorem exportStep_new_conv (out : ExportOut V) (c r : ℕ) (v : V) (cv lv : ℤ)
    (hout : out.length = c) (hcv : cv ≠ (c : ℤ)) :
    exportStep (out, cv, lv) ((c, 0, r), v)
      = some (out ++ [[[(r, v)]]], (c : ℤ), (0 : ℤ)) := by
  unfold exportStep convBranch layerBranch
  rw [if_pos (show (c : ℤ) ≠ ((out, cv, lv) : ExportOut V × ℤ × ℤ).2.1 from
    fun hc => hcv hc.symm)]
  rw [if_pos (show ((0 : ℕ) : ℤ) ≠ ((out ++ [[]], (c : ℤ), (-1 : ℤ)) :
    ExportOut V × ℤ × ℤ).2.2 from by norm_num)]
  show ((modifyLast (fun row => row ++ [[]]) (out ++ [[]])).map
    (fun o => (o, (c : ℤ), ((0 : ℕ) : ℤ)))).bind _ = _
  rw [modifyLast_concat]
  show setItem (out ++ [([] : List (List (ℕ × V))) ++ [[]]], (c : ℤ), ((0 : ℕ) : ℤ)) c 0 r v = _
  rw [setItem_last out [] [] _ _ c 0 r v hout rfl]
  rfl

/-- Running the remaining items of the current layer folds them into the
current dict. -/
theorem exportRun_layer_steady (entries : List (ℕ × V)) :
    ∀ (out : ExportOut V) (row : List (List (ℕ × V))) (cell : List (ℕ × V)) (c l : ℕ),
      out.length = c → row.length = l →
      exportRun (layerItems c l entries) (out ++ [row ++ [cell]], (c : ℤ), (l : ℤ))
        = some (out ++ [row ++ [entries.foldl (fun d e => dinsert e.1 e.2 d) cell]],
            (c : ℤ), (l : ℤ)) := by
  induction entries with
  | nil => intro out row cell c l hout hrow; rfl
  | cons e t ih =>
    intro out row cell c l hout hrow
    show (match exportStep (out ++ [row ++ [cell]], (c : ℤ), (l : ℤ)) ((c, l, e.1), e.2) with
      | none => none
      | some st2 => exportRun (layerItems c l t) st2) = _
    rw [exportStep_same out row cell c l e.1 e.2 hout hrow]
    show exportRun (layerItems c l t)
      (out ++ [row ++ [dinsert e.1 e.2 cell]], (c : ℤ), (l : ℤ)) = _
    rw [ih out row (dinsert e.1 e.2 cell) c l hout hrow]
    rfl

/-- Running one whole layer of items from a fresh-layer state appends exactly
that layer. -/
theorem exportRun_layer (entries : List (ℕ × V)) (out : ExportOut V)
    (row : List (List (ℕ × V))) (c l : ℕ) (lv : ℤ)
    (hout : out.length = c) (hrow : row.length = l) (hlv : lv ≠ (l : ℤ))
    (hne : entries ≠ []) (hnodup : (entries.map Prod.fst).Nodup) :
    exportRun (layerItems c l entries) (out ++ [row], (c : ℤ), lv)
      = some (out ++ [row ++ [entries]], (c : ℤ), (l : ℤ)) := by
  cases entries with
  | nil => exact absurd rfl hne
  | cons e t =>
    show (match exportStep (out ++ [row], (c : ℤ), lv) ((c, l, e.1), e.2) with
      | none => none
      | some st2 => exportRun (layerItems c l t) st2) = _
    rw [exportStep_new_layer out row c l e.1 e.2 lv hout hrow hlv]
    show exportRun (layerItems c l t)
      (out ++ [row ++ [[(e.1, e.2)]]], (c : ℤ), (l : ℤ)) = _
    rw [exportRun_layer_steady t out row [(e.1, e.2)] c l hout hrow]
    have hfold : t.foldl (fun d e => dinsert e.1 e.2 d) [(e.1, e.2)] = (e.1, e.2) :: t := by
      rw [foldl_dinsert t [(e.1, e.2)]]
      · rfl
      · intro x hx
        simp only [List.map_cons, List.map_nil, List.mem_singleton]
        simp only [List.map_cons, List.nodup_cons] at hnodup
        intro hcontra
        exact hnodup.1 (hcontra ▸ List.mem_map_of_mem Prod.fst hx)
      · simp only [List.map_cons, List.nodup_cons] at hnodup
        exact hnodup.2
    rw [hfold]

/-- Running the layers of the current convolution from index `j` on appends
exactly those layers to the current row. -/
theorem exportRun_convFrom (ls : List (List (ℕ × V))) :
    ∀ (j : ℕ) (out : ExportOut V) (row : List (List (ℕ × V))) (c : ℕ) (lv : ℤ),
      out.length = c → row.length = j → lv < (j : ℤ) →
      (∀ x ∈ ls, x ≠ [] ∧ (x.map Prod.fst).Nodup) →
      ∃ lv', exportRun (convItemsFrom c j ls) (out ++ [row], (c : ℤ), lv)
        = some (out ++ [row ++ ls], (c : ℤ), lv') := by
  induction ls with
  | nil =>
    intro j out row c lv hout hrow hlv hwf
    refine ⟨lv, ?_⟩
    show some (out ++ [row], (c : ℤ), lv) = _
    rw [List.append_nil]
  | cons x t ih =>
    intro j out row c lv hout hrow hlv hwf
    obtain ⟨lv', hlv'⟩ := ih (j + 1) out (row ++ [x]) c (j : ℤ) hout
      (by simp [hrow]) (by push_cast; omega)
      (fun y hy => hwf y (by simp [hy]))
    refine ⟨lv', ?_⟩
    show exportRun (layerItems c j x ++ convItemsFrom c (j + 1) t) (out ++ [row], (c : ℤ), lv)
      = _
    rw [exportRun_append]
    rw [exportRun_layer x out row c j lv hout hrow (by omega)
      (hwf x (by simp)).1 (hwf x (by simp)).2]
    show exportRun (convItemsFrom c (j + 1) t)
      (out ++ [row ++ [x]], (c : ℤ), (j : ℤ)) = _
    rw [hlv', ← List.append_cons]

/-- Running one whole convolution of items appends exactly that convolution
as a new row. -/
theorem exportRun_conv (layers : List (List (ℕ × V))) (out : ExportOut V) (c : ℕ) (cv lv : ℤ)
    (hout : out.length = c) (hcv : cv ≠ (c : ℤ)) (hne : layers ≠ [])
    (hwf : ∀ x ∈ layers, x ≠ [] ∧ (x.map Prod.fst).Nodup) :
    ∃ lv', exportRun (convItemsFrom c 0 layers) (out, cv, lv)
      = some (out ++ [layers], (c : ℤ), lv') := by
  cases layers with
  | nil => exact absurd rfl hne
  | cons x t =>
    obtain ⟨hxne, hxnodup⟩ := hwf x (by simp)
    cases x with
    | nil => exact absurd rfl hxne
    | cons e er =>
      have hfold : er.foldl (fun d e => dinsert e.1 e.2 d) [(e.1, e.2)] = (e.1, e.2) :: er := by
        rw [foldl_dinsert er [(e.1, e.2)]]
        · rfl
        · intro y hy
          simp only [List.map_cons, List.map_nil, List.mem_singleton]
          simp only [List.map_cons, List.nodup_cons] at hxnodup
          intro hcontra
          exact hxnodup.1 (hcontra ▸ List.mem_map_of_mem Prod.fst hy)
        · simp only [List.map_cons, List.nodup_cons] at hxnodup
          exact hxnodup.2
      obtain ⟨lv', hlv'⟩ := exportRun_convFrom t 1 out [(e.1, e.2) :: er] c 0 hout rfl
        (by norm_num) (fun y hy => hwf y (by simp [hy]))
      refine ⟨lv', ?_⟩
      show exportRun ((((c, 0, e.1), e.2) :: layerItems c 0 er) ++ convItemsFrom c 1 t)
        (out, cv, lv) = _
      rw [List.cons_append]
      show (match exportStep (out, cv, lv) ((c, 0, e.1), e.2) with
        | none => none
        | some st2 => exportRun (layerItems c 0 er ++ convItemsFrom c 1 t) st2) = _
      rw [exportStep_new_conv out c e.1 e.2 cv lv hout hcv]
      show exportRun (layerItems c 0 er ++ convItemsFrom c 1 t)
        (out ++ [[[(e.1, e.2)]]], (c : ℤ), (0 : ℤ)) = _
      rw [exportRun_append]
      have hsteady := exportRun_layer_steady er out [] [(e.1, e.2)] c 0 hout rfl
      simp only [List.nil_append, Nat.cast_zero] at hsteady
      rw [hsteady, hfold]
      show exportRun (convItemsFrom c 1 t)
        (out ++ [[(e.1, e.2) :: er]], (c : ℤ), (0 : ℤ)) = _
      rw [hlv']
      rw [show ([(e.1, e.2) :: er] : List (List (ℕ × V))) ++ t = ((e.1, e.2) :: er) :: t
        from rfl]

/-- Running the items of the convolutions from index `k` on appends exactly
those convolutions. -/
theorem exportRun_groups (gs : ExportOut V) :
    ∀ (k : ℕ) (out : ExportOut V) (cv lv : ℤ),
      out.length = k → cv < (k : ℤ) →
      (∀ cg ∈ gs, cg ≠ [] ∧ ∀ x ∈ cg, x ≠ [] ∧ (x.map Prod.fst).Nodup) →
      ∃ cv' lv', exportRun (groupsItemsFrom k gs) (out, cv, lv)
        = some (out ++ gs, cv', lv') := by
  induction gs with
  | nil =>
    intro k out cv lv hout hcv hwf
    refine ⟨cv, lv, ?_⟩
    show some (out, cv, lv) = _
    rw [List.append_nil]
  | cons cg t ih =>
    intro k out cv lv hout hcv hwf
    obtain ⟨lv', h1⟩ := exportRun_conv cg out k cv lv hout (by omega)
      (hwf cg (by simp)).1 (hwf cg (by simp)).2
    obtain ⟨cv', lv'', h2⟩ := ih (k + 1) (out ++ [cg]) (k : ℤ) lv'
      (by simp [hout]) (by push_cast; omega) (fun y hy => hwf y (by simp [hy]))
    refine ⟨cv', lv'', ?_⟩
    show exportRun (convItemsFrom k 0 cg ++ groupsItemsFrom (k + 1) t) (out, cv, lv) = _
    rw [exportRun_append, h1]
    show exportRun (groupsItemsFrom (k + 1) t) (out ++ [cg], (k : ℤ), lv') = _
    rw [h2, ← List.append_cons]

/-- The export key order is antisymmetric. -/
theorem keyLE_antisymm (k1 k2 : EKey) (h1 : keyLE k1 k2) (h2 : keyLE k2 k1) : k1 = k2 := by
  obtain ⟨a1, a2, a3⟩ := k1
  obtain ⟨b1, b2, b3⟩ := k2
  unfold keyLE at h1 h2
  simp only [Prod.mk.injEq]
  dsimp only at h1 h2
  omega

/-- Strictly ordered export keys are distinct. -/
theorem keyLT_ne (k1 k2 : EKey) (h : keyLT k1 k2) : k1 ≠ k2 := by
  intro heq
  subst heq
  unfold keyLT at h
  omega

/-- Items of a convolution block carry that convolution index and a layer
index at least `j`. -/
theorem mem_convItemsFrom (c j : ℕ) (ls : List (List (ℕ × V))) :
    ∀ x ∈ convItemsFrom c j ls, x.1.1 = c ∧ j ≤ x.1.2.1 := by
  induction ls generalizing j with
  | nil => intro x hx; exact absurd hx (List.not_mem_nil x)
  | cons y t ih =>
    intro x hx
    rw [show convItemsFrom c j (y :: t) = layerItems c j y ++ convItemsFrom c (j + 1) t
      from rfl, List.mem_append] at hx
    cases hx with
    | inl h =>
      obtain ⟨rv, _, rfl⟩ := List.mem_map.mp h
      exact ⟨rfl, Nat.le_refl j⟩
    | inr h =>
      obtain ⟨h1, h2⟩ := ih (j + 1) x h
      exact ⟨h1, by omega⟩

/-- Items of the convolutions from `k` on carry convolution indices at least
`k`. -/
theorem mem_groupsItemsFrom (k : ℕ) (gs : ExportOut V) :
    ∀ x ∈ groupsItemsFrom k gs, k ≤ x.1.1 := by
  induction gs generalizing k with
  | nil => intro x hx; exact absurd hx (List.not_mem_nil x)
  | cons cg t ih =>
    intro x hx
    rw [show groupsItemsFrom k (cg :: t) = convItemsFrom k 0 cg ++ groupsItemsFrom (k + 1) t
      from rfl, List.mem_append] at hx
    cases hx with
    | inl h => exact (mem_convItemsFrom k 0 cg x h).1 ▸ Nat.le_refl k
    | inr h => have := ih (k + 1) x h; omega

/-- The items of one layer are strictly increasing when its roles are. -/
theorem pairwise_layerItems (c l : ℕ) (entries : List (ℕ × V))
    (h : (entries.map Prod.fst).Pairwise (· < ·)) :
    (layerItems c l entries).Pairwise (fun x y => keyLT x.1 y.1) := by
  unfold layerItems
  rw [List.pairwise_map]
  rw [List.pairwise_map] at h
  refine h.imp ?_
  intro a b hab
  unfold keyLT
  dsimp only
  omega

/-- The items of a convolution block are strictly increasing. -/
theorem pairwise_convItemsFrom (c : ℕ) (ls : List (List (ℕ × V)))
    (h : ∀ x ∈ ls, (x.map Prod.fst).Pairwise (· < ·)) :
    ∀ j : ℕ, (convItemsFrom c j ls).Pairwise (fun x y => keyLT x.1 y.1) := by
  induction ls with
  | nil => intro j; exact List.Pairwise.nil
  | cons y t ih =>
    intro j
    rw [show convItemsFrom c j (y :: t) = layerItems c j y ++ convItemsFrom c (j + 1) t
      from rfl, List.pairwise_append]
    refine ⟨pairwise_layerItems c j y (h y (by simp)), ih (fun x hx => h x (by simp [hx])) (j + 1), ?_⟩
    intro a ha b hb
    obtain ⟨rv, _, rfl⟩ := List.mem_map.mp ha
    obtain ⟨hb1, hb2⟩ := mem_convItemsFrom c (j + 1) t b hb
    unfold keyLT
    dsimp only
    omega

/-- The items of a well-formed canonical snapshot are strictly increasing. -/
theorem pairwise_groupsItemsFrom (gs : ExportOut V) (hwf : WFGroups gs) :
    ∀ k : ℕ, (groupsItemsFrom k gs).Pairwise (fun x y => keyLT x.1 y.1) := by
  induction gs with
  | nil => intro k; exact List.Pairwise.nil
  | cons cg t ih =>
    intro k
    rw [show groupsItemsFrom k (cg :: t) = convItemsFrom k 0 cg ++ groupsItemsFrom (k + 1) t
      from rfl, List.pairwise_append]
    refine ⟨pairwise_convItemsFrom k cg
        (fun x hx => ((hwf cg (by simp)).2 x hx).2) 0,
      ih (fun cg2 hcg2 => hwf cg2 (by simp [hcg2])) (k + 1), ?_⟩
    intro a ha b hb
    have ha1 := (mem_convItemsFrom k 0 cg a ha).1
    have hb1 := mem_groupsItemsFrom (k + 1) t b hb
    unfold keyLT
    omega

/-- Two sorted permutations of each other with duplicate-free keys are
equal (so `sorted(items)` has a unique result). -/
theorem sorted_perm_eq (l₁ : List (EKey × V)) :
    ∀ l₂ : List (EKey × V), l₁.Perm l₂ → l₁.Sorted (@exportLE V) → l₂.Sorted (@exportLE V) →
      (l₂.map Prod.fst).Nodup → l₁ = l₂ := by
  induction l₁ with
  | nil =>
    intro l₂ hperm _ _ _
    exact (hperm.symm.eq_nil).symm
  | cons a t ih =>
    intro l₂ hperm hs1 hs2 hnd
    cases l₂ with
    | nil => exact absurd hperm.eq_nil (by simp)
    | cons b u =>
      have hab : a = b := by
        by_contra hne
        have hamem : a ∈ b :: u := hperm.subset (by simp)
        have hau : a ∈ u := by
          cases List.mem_cons.mp hamem with
          | inl h => exact absurd h hne
          | inr h => exact h
        have hbmem : b ∈ a :: t := hperm.symm.subset (by simp)
        have hbt : b ∈ t := by
          cases List.mem_cons.mp hbmem with
          | inl h => exact absurd h.symm hne
          | inr h => exact h
        have h1 : exportLE a b := (List.pairwise_cons.mp hs1).1 b hbt
        have h2 : exportLE b a := (List.pairwise_cons.mp hs2).1 a hau
        have hk : a.1 = b.1 := keyLE_antisymm a.1 b.1 h1 h2
        simp only [List.map_cons, List.nodup_cons] at hnd
        exact hnd.1 (hk ▸ List.mem_map_of_mem Prod.fst hau)
      subst hab
      have ht : t.Perm u := hperm.cons_inv
      have := ih u ht (List.Pairwise.sublist (List.sublist_cons_self a t) hs1)
        (List.Pairwise.sublist (List.sublist_cons_self a u) hs2)
        (by simp only [List.map_cons, List.nodup_cons] at hnd; exact hnd.2)
      rw [this]

/-- The exporter on any snapshot whose matching items are a permutation of a
well-formed canonical snapshot reconstructs exactly that snapshot. -/
theorem saveYaml_of_groups (gs : ExportOut V) (vars : List (VarName × V))
    (hwf : WFGroups gs) (hperm : (matchItems vars).Perm (groupsItems gs)) :
    saveYamlModel vars = some gs := by
  have hplt : (groupsItems gs).Pairwise (fun x y => keyLT x.1 y.1) :=
    pairwise_groupsItemsFrom gs hwf 0
  have hsorted2 : (groupsItems gs).Sorted (@exportLE V) := by
    refine hplt.imp ?_
    intro x y hxy
    unfold exportLE keyLE
    unfold keyLT at hxy
    omega
  have hnodup : ((groupsItems gs).map Prod.fst).Nodup := by
    have h2 : (groupsItems gs).Pairwise (fun x y => x.1 ≠ y.1) :=
      hplt.imp (fun h => keyLT_ne _ _ h)
    exact List.pairwise_map.mpr h2
  have h1 : (List.insertionSort (@exportLE V) (matchItems vars)).Perm (groupsItems gs) :=
    (List.perm_insertionSort _ _).trans hperm
  have heq : List.insertionSort (@exportLE V) (matchItems vars) = groupsItems gs :=
    sorted_perm_eq _ _ h1 (List.sorted_insertionSort _ _) hsorted2 hnodup
  unfold saveYamlModel
  rw [heq]
  obtain ⟨cv', lv', hrun⟩ := exportRun_groups gs 0 [] (-1) (-1) rfl (by norm_num)
    (fun cg hcg => ⟨(hwf cg hcg).1, fun x hx => ⟨((hwf cg hcg).2 x hx).1,
      (((hwf cg hcg).2 x hx).2).imp (fun h => ne_of_lt h)⟩⟩)
  rw [show (groupsItems gs : List (EKey × V)) = groupsItemsFrom 0 gs from rfl, hrun]
  simp

/-- Claim C10: the exporter is total exactly on contiguous index sets.  For
every variable snapshot whose matching names form, up to permutation, the
keyed items of a well-formed canonical snapshot `gs` (convolution indices
exactly `0..C-1`, layer indices within each convolution exactly `0..L-1`),
the exported structure is `some gs` — outer length `C`, position `[c][l]`
holding exactly that layer's role-value pairs.  And for the concrete
snapshot `gapVars` with convolutions `{0, 2}`, the direct indexing
`output[conv][layer]` raises an out-of-range `IndexError` (`none`). -/
theorem claim_C10_exporter :
    (∀ (V : Type) (gs : ExportOut V) (vars : List (VarName × V)),
        WFGroups gs → (matchItems vars).Perm (groupsItems gs) →
        saveYamlModel vars = some gs)
    ∧ saveYamlModel gapVars = none :=
  ⟨fun V gs vars hwf hperm => saveYaml_of_groups gs vars hwf hperm, rfl⟩

/-- Claim C10, witness: a contiguous two-convolution snapshot, given in
scrambled order with one non-matching variable name, exports to its
canonical nested structure. -/
theorem claim_C10_witness :
    WFGroups ([[[(0, (5 : ℚ)), (1, 7)]], [[(0, 2), (1, 3)]]] : ExportOut ℚ)
    ∧ (matchItems [(VarName.convLayer 1 0 1, (3 : ℚ)), (VarName.other "x", 9),
        (VarName.convLayer 0 0 0, 5), (VarName.convLayer 1 0 0, 2),
        (VarName.convLayer 0 0 1, 7)]).Perm
        (groupsItems ([[[(0, (5 : ℚ)), (1, 7)]], [[(0, 2), (1, 3)]]] : ExportOut ℚ))
    ∧ saveYamlModel [(VarName.convLayer 1 0 1, (3 : ℚ)), (VarName.other "x", 9),
        (VarName.convLayer 0 0 0, 5), (VarName.convLayer 1 0 0, 2),
        (VarName.convLayer 0 0 1, 7)]
      = some ([[[(0, (5 : ℚ)), (1, 7)]], [[(0, 2), (1, 3)]]] : ExportOut ℚ) :=
  ⟨by unfold WFGroups; exact of_decide_eq_true (by with_unfolding_all rfl),
    of_decide_eq_true (by with_unfolding_all rfl),
    claim_C10_exporter.1 ℚ [[[(0, (5 : ℚ)), (1, 7)]], [[(0, 2), (1, 3)]]]
      [(VarName.convLayer 1 0 1, (3 : ℚ)), (VarName.other "x", 9),
        (VarName.convLayer 0 0 0, 5), (VarName.convLayer 1 0 0, 2),
        (VarName.convLayer 0 0 1, 7)]
      (by unfold WFGroups; exact of_decide_eq_true (by with_unfolding_all rfl))
      (of_decide_eq_true (by with_unfolding_all rfl))⟩

end VM
